import Mathlib

attribute [local semireducible] Rat.add Rat.mul Rat.inv Rat.sub Rat.ofScientific

/-!
Verification of the word-operator calculator (lexer, recursive-descent
parser, tree-walking evaluator) from `src/main.rs`.

Numeric domain: the source computes in IEEE-754 binary64 (`f64`).  We model
it as `F64`: exact rationals extended with the two infinities and NaN.  All
arithmetic is exact (no rounding, no overflow); the model agrees with
binary64 arithmetic on every value appearing in the theorems below (small
dyadic rationals, plus the division-by-zero cases, which follow the IEEE
rules).  The two IEEE zeros are collapsed to the single rational `0`; no
theorem below distinguishes them.
-/

/-- Idealized `f64`: exact rationals plus infinities and NaN. -/
inductive F64 where
  | finite (q : ℚ)
  | posInf
  | negInf
  | nan
deriving DecidableEq, Repr

namespace F64

/-- IEEE-style addition on the idealized domain (exact on finite values). -/
def add : F64 → F64 → F64
  | finite a, finite b => finite (a + b)
  | nan, _ => nan
  | _, nan => nan
  | posInf, negInf => nan
  | negInf, posInf => nan
  | posInf, _ => posInf
  | _, posInf => posInf
  | negInf, _ => negInf
  | _, negInf => negInf

/-- IEEE-style negation. -/
def neg : F64 → F64
  | finite a => finite (-a)
  | posInf => negInf
  | negInf => posInf
  | nan => nan

/-- IEEE-style subtraction, `a - b = a + (-b)`. -/
def sub (a b : F64) : F64 := add a (neg b)

/-- IEEE-style multiplication; `∞ * 0` is NaN. -/
def mul : F64 → F64 → F64
  | finite a, finite b => finite (a * b)
  | nan, _ => nan
  | _, nan => nan
  | posInf, posInf => posInf
  | posInf, negInf => negInf
  | negInf, posInf => negInf
  | negInf, negInf => posInf
  | posInf, finite b => if 0 < b then posInf else if b < 0 then negInf else nan
  | finite a, posInf => if 0 < a then posInf else if a < 0 then negInf else nan
  | negInf, finite b => if 0 < b then negInf else if b < 0 then posInf else nan
  | finite a, negInf => if 0 < a then negInf else if a < 0 then posInf else nan

/-- IEEE-style division.  Division of a nonzero finite value by zero gives a
signed infinity (the model's zero behaves as IEEE `+0`); `0 / 0` is NaN. -/
def div : F64 → F64 → F64
  | finite a, finite b =>
      if b = 0 then
        if 0 < a then posInf else if a < 0 then negInf else nan
      else finite (a / b)
  | nan, _ => nan
  | _, nan => nan
  | posInf, posInf => nan
  | posInf, negInf => nan
  | negInf, posInf => nan
  | negInf, negInf => nan
  | finite _, posInf => finite 0
  | finite _, negInf => finite 0
  | posInf, finite b => if 0 ≤ b then posInf else negInf
  | negInf, finite b => if 0 ≤ b then negInf else posInf

/-- Rust `PartialEq` on `f64`: NaN compares unequal to everything. -/
def beq : F64 → F64 → Bool
  | finite a, finite b => a = b
  | posInf, posInf => true
  | negInf, negInf => true
  | _, _ => false

end F64

/-- The token type of `main.rs` (`enum Token`). -/
inductive Token where
  | Number (v : F64)
  | Plus
  | Minus
  | Mul
  | Div
  | LParen
  | RParen
  | EOF
deriving DecidableEq, Repr

/-- Rust `#[derive(PartialEq)]` equality on `Token`: structural, with the
`Number` payload compared by `f64` equality (NaN unequal to itself). -/
def tokenEq : Token → Token → Bool
  | .Number a, .Number b => F64.beq a b
  | .Plus, .Plus => true
  | .Minus, .Minus => true
  | .Mul, .Mul => true
  | .Div, .Div => true
  | .LParen, .LParen => true
  | .RParen, .RParen => true
  | .EOF, .EOF => true
  | _, _ => false

/-! ## Character classification

The source uses Rust's Unicode-aware `char::is_numeric`, `char::is_alphabetic`
and `char::is_alphanumeric`.  We model them exactly on the ASCII range (where
they coincide with the ASCII classifications) and, beyond ASCII, on the ranges
exercised by the theorems below: the Latin-1 letters (for `is_alphabetic`,
e.g. `é`) and the Arabic-Indic digits U+0660–U+0669 (for `is_numeric`).
Other non-ASCII code points are classified as neither; no theorem below
depends on the classification of any character outside these ranges. -/

/-- Model of Rust `char::is_numeric` (see the note above). -/
def rustIsNumeric (c : Char) : Bool :=
  c.isDigit || (0x660 ≤ c.toNat && c.toNat ≤ 0x669)

/-- Model of Rust `char::is_alphabetic` (see the note above). -/
def rustIsAlphabetic (c : Char) : Bool :=
  c.isAlpha ||
    (0xC0 ≤ c.toNat && c.toNat ≤ 0xFF && c.toNat ≠ 0xD7 && c.toNat ≠ 0xF7)

/-- Model of Rust `char::is_alphanumeric` (alphabetic or numeric). -/
def rustIsAlphanumeric (c : Char) : Bool :=
  rustIsAlphabetic c || rustIsNumeric c

/-- The four whitespace characters matched by `get_tokens`. -/
def isWsChar (c : Char) : Bool :=
  c = ' ' || c = '\t' || c = '\n' || c = '\r'

/-! ## Numeric literal parsing

`Lexer::number` slices the captured run out of the input and calls
`str::parse::<f64>().unwrap()`.  On a string drawn from the characters the
run loop accepts (ASCII digits, `.`, and possibly non-ASCII numeric
characters), Rust's `f64` parser succeeds exactly when the string consists
of ASCII digits and at most one `.`, with at least one digit; the value is
the decimal value (exact in this model; Rust rounds to the nearest
binary64, which is the identity on every literal appearing below). -/

/-- Decimal value of a list of ASCII digits (most significant first). -/
def digitsToNat (s : List Char) : Nat :=
  s.foldl (fun acc c => 10 * acc + (c.toNat - 48)) 0

/-- Exact decimal value of a digits-and-dot literal. -/
def numValue (s : List Char) : ℚ :=
  let ip := s.takeWhile (fun c => c ≠ '.')
  let fp := (s.dropWhile (fun c => c ≠ '.')).drop 1
  (digitsToNat ip : ℚ) + (digitsToNat fp : ℚ) / (10 : ℚ) ^ fp.length

/-- Model of `str::parse::<f64>` restricted to the strings the number loop
can capture: succeeds iff the string is made of ASCII digits and at most one
dot and contains at least one digit. -/
def parseNum (s : List Char) : Option F64 :=
  if (s.all fun c => c.isDigit || c = '.') ∧ s.count '.' ≤ 1 ∧
      (s.any fun c => c.isDigit) then
    some (.finite (numValue s))
  else
    none

/-! ## The lexer, as implemented

`Lexer` keeps the input `String`, a `position : usize` and a
`current_char : Option<char>`.  `advance` increments `position`, checks it
against `self.input.len()` — the **byte** length — and then looks the
character up with `self.input.chars().nth(self.position)` — a **character**
index — unwrapping the result (a panic when the index is past the last
character).  `number`/`identifier` slice `self.input[start..pos]` — **byte**
offsets, a panic when they do not fall on UTF-8 boundaries.  We model the
input as its list of characters together with the UTF-8 byte size of each
character, and model each panic as a distinct error value. -/

/-- Everything that aborts the lexer: the three lexical faults
(`unexpectedChar`, `unexpectedIdent`, `numberParse`, corresponding to the
three `panic!`/`unwrap` messages) plus the two memory-safety panics of the
byte/char confusion (`charIndexPanic` from `chars().nth(..).unwrap()`,
`sliceBoundary` from slicing off a UTF-8 boundary) and fuel exhaustion
(an artifact of the fueled embedding, never reached with the fuel supplied
by `getTokens`). -/
inductive LexErr where
  | unexpectedChar (c : Char)
  | unexpectedIdent (s : List Char)
  | numberParse (s : List Char)
  | charIndexPanic (i : Nat)
  | sliceBoundary (a b : Nat)
  | fuelOut
deriving DecidableEq, Repr

/-- UTF-8 byte length of the input, Rust's `String::len`. -/
def byteLen (l : List Char) : Nat := (l.map Char.utf8Size).sum

/-- Drop `n` bytes from the front of a character list; `none` when `n` does
not fall on a character boundary (Rust slicing panics there). -/
def dropBytes : List Char → Nat → Option (List Char)
  | l, 0 => some l
  | [], _ + 1 => none
  | c :: t, n + 1 =>
      if c.utf8Size ≤ n + 1 then dropBytes t (n + 1 - c.utf8Size) else none

/-- Take `n` bytes from the front of a character list; `none` off boundary. -/
def takeBytes : List Char → Nat → Option (List Char)
  | _, 0 => some []
  | [], _ + 1 => none
  | c :: t, n + 1 =>
      if c.utf8Size ≤ n + 1 then
        Option.map (c :: ·) (takeBytes t (n + 1 - c.utf8Size))
      else none

/-- Rust `&input[a..b]` on byte offsets, as the list of characters. -/
def byteSlice (l : List Char) (a b : Nat) : Option (List Char) :=
  if a ≤ b then
    match dropBytes l a with
    | some l' => takeBytes l' (b - a)
    | none => none
  else none

/-- The lexer's mutable cursor: `position` and `current_char`. -/
structure LexState where
  pos : Nat
  cur : Option Char
deriving DecidableEq, Repr

/-- Model of `Lexer::advance`: increment `position`, compare against the byte length,
then fetch `chars().nth(position)`, panicking if that is out of range. -/
def advanceL (input : List Char) (s : LexState) : Except LexErr LexState :=
  let p := s.pos + 1
  if p < byteLen input then
    match input[p]? with
    | some c => .ok ⟨p, some c⟩
    | none => .error (.charIndexPanic p)
  else .ok ⟨p, none⟩

/-- The shared shape of the scanning loops of `Lexer::number` and
`Lexer::identifier`: advance while the current character satisfies the
given class. -/
def runLoopF (pred : Char → Bool) (input : List Char) :
    Nat → LexState → Except LexErr LexState
  | 0, _ => .error .fuelOut
  | f + 1, s =>
    match s.cur with
    | some c =>
      if pred c then
        match advanceL input s with
        | .ok s' => runLoopF pred input f s'
        | .error e => .error e
      else .ok s
    | none => .ok s

/-- The character class of the `Lexer::number` loop. -/
def numPredC (c : Char) : Bool := rustIsNumeric c || c = '.'

/-- The scanning loop of `Lexer::number`: advance while the current
character is numeric or a dot. -/
def numLoopF (input : List Char) : Nat → LexState → Except LexErr LexState :=
  runLoopF numPredC input

/-- Model of `Lexer::number`: run the loop, slice the run out by byte offsets, parse
it as an `f64`. -/
def numberF (input : List Char) (fuel : Nat) (s : LexState) :
    Except LexErr (Token × LexState) :=
  match numLoopF input fuel s with
  | .error e => .error e
  | .ok s' =>
    match byteSlice input s.pos s'.pos with
    | none => .error (.sliceBoundary s.pos s'.pos)
    | some run =>
      match parseNum run with
      | some v => .ok (.Number v, s')
      | none => .error (.numberParse run)

/-- The scanning loop of `Lexer::identifier`: advance while alphanumeric. -/
def identLoopF (input : List Char) : Nat → LexState → Except LexErr LexState :=
  runLoopF rustIsAlphanumeric input

/-- The keyword table of `Lexer::identifier`. -/
def keywordTok (s : List Char) : Option Token :=
  if s = "plus".toList then some .Plus
  else if s = "minus".toList then some .Minus
  else if s = "mul".toList then some .Mul
  else if s = "div".toList then some .Div
  else none

/-- Model of `Lexer::identifier`: run the loop, slice the run out by byte offsets,
look it up in the keyword table. -/
def identifierF (input : List Char) (fuel : Nat) (s : LexState) :
    Except LexErr (Token × LexState) :=
  match identLoopF input fuel s with
  | .error e => .error e
  | .ok s' =>
    match byteSlice input s.pos s'.pos with
    | none => .error (.sliceBoundary s.pos s'.pos)
    | some run =>
      match keywordTok run with
      | some t => .ok (t, s')
      | none => .error (.unexpectedIdent run)

/-- The main loop of `Lexer::get_tokens`, dispatching on the current
character exactly as the Rust `match` does. -/
def getTokensLoopF (input : List Char) :
    Nat → LexState → List Token → Except LexErr (List Token)
  | 0, _, _ => .error .fuelOut
  | f + 1, s, acc =>
    match s.cur with
    | none => .ok (acc ++ [.EOF])
    | some c =>
      if c.isDigit || c = '.' then
        match numberF input f s with
        | .ok (t, s') => getTokensLoopF input f s' (acc ++ [t])
        | .error e => .error e
      else if isWsChar c then
        match advanceL input s with
        | .ok s' => getTokensLoopF input f s' acc
        | .error e => .error e
      else if c = '(' then
        match advanceL input s with
        | .ok s' => getTokensLoopF input f s' (acc ++ [.LParen])
        | .error e => .error e
      else if c = ')' then
        match advanceL input s with
        | .ok s' => getTokensLoopF input f s' (acc ++ [.RParen])
        | .error e => .error e
      else if rustIsAlphabetic c then
        match identifierF input f s with
        | .ok (t, s') => getTokensLoopF input f s' (acc ++ [t])
        | .error e => .error e
      else .error (.unexpectedChar c)

/-- Model of `Lexer::get_tokens` on a fresh lexer (`Lexer::new` sets `position = 0`
and `current_char` to the first character).  The fuel `byteLen input + 2`
is enough for any run that does not abort (each loop iteration advances the
position, which the byte-length bound caps). -/
def getTokens (input : List Char) : Except LexErr (List Token) :=
  getTokensLoopF input (byteLen input + 2) ⟨0, input[0]?⟩ []

/-! ## The parser, as implemented

`Parser` holds the token vector and a cursor.  `current_token` indexes
`self.tokens[self.position]` — a panic when the cursor is out of range,
modelled by the `outOfRange` error.  The mutually recursive routines
`expression`/`term`/`factor`/`primary` (with the two `while` loops of
`term` and `factor` as explicit loop states) are embedded as a single
fueled driver `runP` over a tag type naming the routine, so that the
recursion is structural in the fuel and every lemma is one induction on
the fuel.  `fuelOut` is an artifact of the embedding; the fuel supplied
by `parse` is proved sufficient below. -/

/-- Parser aborts: the two reported panics of the source
(`unexpectedToken` from `Parser::primary`, `expectedFound` from
`Parser::expect`), the out-of-range vector access panic of
`current_token`, and fuel exhaustion (embedding artifact). -/
inductive PErr where
  | unexpectedToken (t : Token)
  | expectedFound (expected actual : Token)
  | outOfRange (i : Nat)
  | fuelOut
deriving DecidableEq, Repr

/-- The AST of `main.rs` (`enum ASTNode`): a leaf number or a binary
operation holding its operator token. -/
inductive ASTNode where
  | Number (v : F64)
  | BinaryOp (l : ASTNode) (op : Token) (r : ASTNode)
deriving DecidableEq, Repr

/-- Model of `Parser::current_token`: `self.tokens[self.position]`, panicking when
the cursor is past the end of the vector. -/
def currentTok (toks : List Token) (pos : Nat) : Except PErr Token :=
  match toks[pos]? with
  | some t => .ok t
  | none => .error (.outOfRange pos)

/-- Model of `Parser::expect`: consume the current token iff it equals (by the
derived `PartialEq`) the expected one, else fail reporting expected vs
actual.  Returns the new cursor. -/
def expectF (toks : List Token) (pos : Nat) (expected : Token) :
    Except PErr Nat :=
  match currentTok toks pos with
  | .error e => .error e
  | .ok t =>
    if tokenEq t expected then .ok (pos + 1)
    else .error (.expectedFound expected t)

/-- Which parser routine is running: `expression`, `term`, the additive
while-loop of `term` (carrying the node built so far), `factor`, the
multiplicative while-loop of `factor`, or `primary`.  Each carries the
cursor position. -/
inductive PFn where
  | expr (pos : Nat)
  | term (pos : Nat)
  | termLoop (node : ASTNode) (pos : Nat)
  | factor (pos : Nat)
  | factorLoop (node : ASTNode) (pos : Nat)
  | primary (pos : Nat)
deriving DecidableEq, Repr

/-- The fueled driver for the recursive-descent parser.  Each case is a
line-by-line embedding of the corresponding routine of `main.rs`;
successful results return the built node and the new cursor. -/
def runP (toks : List Token) : Nat → PFn → Except PErr (ASTNode × Nat)
  | 0, _ => .error .fuelOut
  | f + 1, tag =>
    match tag with
    | .expr pos => runP toks f (.term pos)
    | .term pos =>
      match runP toks f (.factor pos) with
      | .ok (n, p) => runP toks f (.termLoop n p)
      | .error e => .error e
    | .termLoop n p =>
      match currentTok toks p with
      | .ok .Plus =>
        match runP toks f (.factor (p + 1)) with
        | .ok (m, p') => runP toks f (.termLoop (.BinaryOp n .Plus m) p')
        | .error e => .error e
      | .ok .Minus =>
        match runP toks f (.factor (p + 1)) with
        | .ok (m, p') => runP toks f (.termLoop (.BinaryOp n .Minus m) p')
        | .error e => .error e
      | .ok _ => .ok (n, p)
      | .error e => .error e
    | .factor pos =>
      match runP toks f (.primary pos) with
      | .ok (n, p) => runP toks f (.factorLoop n p)
      | .error e => .error e
    | .factorLoop n p =>
      match currentTok toks p with
      | .ok .Mul =>
        match runP toks f (.primary (p + 1)) with
        | .ok (m, p') => runP toks f (.factorLoop (.BinaryOp n .Mul m) p')
        | .error e => .error e
      | .ok .Div =>
        match runP toks f (.primary (p + 1)) with
        | .ok (m, p') => runP toks f (.factorLoop (.BinaryOp n .Div m) p')
        | .error e => .error e
      | .ok _ => .ok (n, p)
      | .error e => .error e
    | .primary pos =>
      match currentTok toks pos with
      | .ok (.Number v) => .ok (.Number v, pos + 1)
      | .ok .LParen =>
        match runP toks f (.expr (pos + 1)) with
        | .ok (n, p) =>
          match expectF toks p .RParen with
          | .ok p' => .ok (n, p')
          | .error e => .error e
        | .error e => .error e
      | .ok t => .error (.unexpectedToken t)
      | .error e => .error e

/-- Model of `Parser::expression` from a given cursor. -/
def expression (toks : List Token) (fuel pos : Nat) :
    Except PErr (ASTNode × Nat) :=
  runP toks fuel (.expr pos)

/-- Fuel sufficient for any parse of `toks` (proved below). -/
def parseFuel (toks : List Token) : Nat := 4 * toks.length + 4

/-- Model of `Parser::parse` on a fresh parser (`Parser::new` sets the cursor to 0):
parse one expression from position 0 and return its root, ignoring where
the cursor ended up. -/
def parse (toks : List Token) : Except PErr ASTNode :=
  Except.map Prod.fst (expression toks (parseFuel toks) 0)

/-- Model of `Interpreter::interpret`: structural recursion over the AST, left
subtree before right; the `unreachable!()` arm for a non-arithmetic
operator token is modelled as `none`. -/
def interpret : ASTNode → Option F64
  | .Number n => some n
  | .BinaryOp l op r =>
    match interpret l with
    | none => none
    | some lv =>
      match interpret r with
      | none => none
      | some rv =>
        match op with
        | .Plus => some (F64.add lv rv)
        | .Minus => some (F64.sub lv rv)
        | .Mul => some (F64.mul lv rv)
        | .Div => some (F64.div lv rv)
        | _ => none

/-- An abort of the whole pipeline: a lexer panic, a parser panic, or the
evaluator's `unreachable!()` arm. -/
inductive RunErr where
  | lexErr (e : LexErr)
  | parseErr (e : PErr)
  | evalStuck
deriving DecidableEq, Repr

/-- The per-line pipeline of `main`: lex, parse, evaluate. -/
def runLine (input : List Char) : Except RunErr F64 :=
  match getTokens input with
  | .error e => .error (.lexErr e)
  | .ok ts =>
    match parse ts with
    | .error e => .error (.parseErr e)
    | .ok ast =>
      match interpret ast with
      | some v => .ok v
      | none => .error .evalStuck

/-- The operator tokens a Binary-operation node may carry, per the AST
invariant of the spec: one of plus, minus, mul, div. -/
def arithTok : Token → Bool
  | .Plus => true
  | .Minus => true
  | .Mul => true
  | .Div => true
  | _ => false

/-- The spec's AST invariant: every `BinaryOp` node's operator is one of
the four arithmetic operator tokens. -/
def wfAST : ASTNode → Bool
  | .Number _ => true
  | .BinaryOp l op r => arithTok op && wfAST l && wfAST r

/-! ## The lexer of the specification

Modelled from the spec (§4.1): the per-character scanning algorithm, with
the read position maintained directly as a character position — dispatch on
the current character; an ASCII digit or `.` starts a maximal run of digits
and `.` parsed as a number; the four whitespace characters are skipped;
parentheses are emitted directly; an alphabetic character starts a maximal
alphanumeric run looked up in the keyword table; anything else is a fatal
unexpected-character error; one end-of-input token is appended at the end.
The only errors it can produce (besides the fuel artifact, ruled out below)
are the spec's three lexical faults: `unexpectedChar`, `unexpectedIdent`
and `numberParse`.  Its control flow mirrors `getTokensLoopF` step for
step, with the same fuel discipline, so that on all-ASCII input the two
run in lockstep. -/

/-- Spec-side maximal run of characters of a class: returns the run and
the rest of the input (fueled like the code-side loop, one step per
character). -/
def specRunF (pred : Char → Bool) :
    Nat → List Char → Except LexErr (List Char × List Char)
  | 0, _ => .error .fuelOut
  | f + 1, l =>
    match l with
    | [] => .ok ([], [])
    | c :: t =>
      if pred c then
        match specRunF pred f t with
        | .ok (run, rest) => .ok (c :: run, rest)
        | .error e => .error e
      else .ok ([], c :: t)

/-- The character class of the spec's numeric run: ASCII digits and the
dot. -/
def numPredS (c : Char) : Bool := c.isDigit || c = '.'

/-- Maximal run of ASCII digits and dots, spec-side. -/
def specNumLoopF : Nat → List Char → Except LexErr (List Char × List Char) :=
  specRunF numPredS

/-- Maximal alphanumeric run, spec-side. -/
def specIdentLoopF : Nat → List Char → Except LexErr (List Char × List Char) :=
  specRunF rustIsAlphanumeric

/-- The spec's scanning loop over the remaining characters. -/
def scanSpecLoopF : Nat → List Char → List Token → Except LexErr (List Token)
  | 0, _, _ => .error .fuelOut
  | f + 1, l, acc =>
    match l with
    | [] => .ok (acc ++ [.EOF])
    | c :: t =>
      if c.isDigit || c = '.' then
        match specNumLoopF f (c :: t) with
        | .ok (run, rest) =>
          match parseNum run with
          | some v => scanSpecLoopF f rest (acc ++ [.Number v])
          | none => .error (.numberParse run)
        | .error e => .error e
      else if isWsChar c then
        scanSpecLoopF f t acc
      else if c = '(' then
        scanSpecLoopF f t (acc ++ [.LParen])
      else if c = ')' then
        scanSpecLoopF f t (acc ++ [.RParen])
      else if rustIsAlphabetic c then
        match specIdentLoopF f (c :: t) with
        | .ok (run, rest) =>
          match keywordTok run with
          | some tok => scanSpecLoopF f rest (acc ++ [tok])
          | none => .error (.unexpectedIdent run)
        | .error e => .error e
      else .error (.unexpectedChar c)

/-- The spec's lexer: scan the whole line, append one end-of-input token. -/
def scanSpec (input : List Char) : Except LexErr (List Token) :=
  scanSpecLoopF (input.length + 2) input []

/-- The three lexical faults of the spec's error taxonomy (§7): an
unrecognized character, an identifier outside the keyword set, a malformed
numeric literal. -/
def isLexFault : LexErr → Bool
  | .unexpectedChar _ => true
  | .unexpectedIdent _ => true
  | .numberParse _ => true
  | _ => false

/-- A character that UTF-8 encodes in one byte (an ASCII character). -/
def asciiChar (c : Char) : Bool := c.toNat < 128

/-- The cursor position a parser routine starts from. -/
def tagPos : PFn → Nat
  | .expr p => p
  | .term p => p
  | .termLoop _ p => p
  | .factor p => p
  | .factorLoop _ p => p
  | .primary p => p

/-- Lower bound on the cursor position a routine returns on success: the
while-loop states may consume nothing, every other routine consumes at
least one token. -/
def tagLo : PFn → Nat
  | .expr p => p + 1
  | .term p => p + 1
  | .termLoop _ p => p
  | .factor p => p + 1
  | .factorLoop _ p => p
  | .primary p => p + 1

/-- Fuel sufficient for a routine run against a token vector of length
`len` (proved sufficient below). -/
def tagNeed (len : Nat) : PFn → Nat
  | .expr p => 4 * (len - p) + 4
  | .term p => 4 * (len - p) + 3
  | .termLoop _ p => 4 * (len - p) + 2
  | .factor p => 4 * (len - p) + 2
  | .factorLoop _ p => 4 * (len - p) + 2
  | .primary p => 4 * (len - p) + 1

/-- Well-formedness of the node a while-loop state carries (vacuous for
the other routines). -/
def tagWf : PFn → Bool
  | .expr _ => true
  | .term _ => true
  | .termLoop n _ => wfAST n
  | .factor _ => true
  | .factorLoop n _ => wfAST n
  | .primary _ => true


/-! # Theorems -/

/-- C1: Multiplicative operators bind tighter than additive ones, and
parentheses override this grouping: the full pipeline (lex, parse,
evaluate) yields 11 on the input line `3 plus 4 mul 2` and 14 on
`(3 plus 4) mul 2`. -/
theorem c1_precedence_and_parens :
    runLine "3 plus 4 mul 2".toList = .ok (.finite 11) ∧
    runLine "(3 plus 4) mul 2".toList = .ok (.finite 14) :=
  ⟨rfl, rfl⟩

/-- C2: Operators of equal precedence are left-associative: the pipeline
yields 5 on `10 minus 2 minus 3`, the lexer turns that line into the
expected token sequence, and the parser folds the repeated `minus` into a
left-leaning chain of binary nodes, `(10 - 2) - 3`. -/
theorem c2_left_associativity :
    runLine "10 minus 2 minus 3".toList = .ok (.finite 5) ∧
    getTokens "10 minus 2 minus 3".toList =
      .ok [.Number (.finite 10), .Minus, .Number (.finite 2), .Minus,
        .Number (.finite 3), .EOF] ∧
    parse [.Number (.finite 10), .Minus, .Number (.finite 2), .Minus,
        .Number (.finite 3), .EOF] =
      .ok (.BinaryOp
        (.BinaryOp (.Number (.finite 10)) .Minus (.Number (.finite 2)))
        .Minus (.Number (.finite 3))) :=
  ⟨rfl, rfl, rfl⟩

/-- C5: Division is evaluated in the floating-point domain and never
signals an error: the pipeline yields 3.5 (= 7/2) on `7 div 2` and
positive infinity, not a failure, on `1 div 0`. -/
theorem c5_division_floating_point :
    runLine "7 div 2".toList = .ok (.finite (7 / 2)) ∧
    runLine "1 div 0".toList = .ok .posInf :=
  ⟨rfl, rfl⟩

/-! ## Parser lemmas -/

/-- Rust token equality only identifies equal tokens (it is reflexive on
everything except NaN payloads). -/
theorem tokenEq_eq {a b : Token} (h : tokenEq a b = true) : a = b := by
  cases a <;> cases b <;> simp_all [tokenEq, F64.beq]
  next x y =>
    cases x <;> cases y <;> simp_all [F64.beq]

/-- Reading the current token succeeds exactly on in-range cursors and
returns the vector entry. -/
theorem currentTok_ok_iff {toks : List Token} {pos : Nat} {t : Token} :
    currentTok toks pos = .ok t ↔ toks[pos]? = some t := by
  unfold currentTok
  cases h : toks[pos]? <;> simp

/-- A successful `current_token` read means the cursor is in range. -/
theorem currentTok_lt {toks : List Token} {pos : Nat} {t : Token}
    (h : currentTok toks pos = .ok t) : pos < toks.length := by
  rw [currentTok_ok_iff] at h
  exact (List.getElem?_eq_some_iff.mp h).1

/-- The only failure of `current_token` is the out-of-range panic. -/
theorem currentTok_err {toks : List Token} {pos : Nat} {e : PErr}
    (h : currentTok toks pos = .error e) : e = .outOfRange pos := by
  unfold currentTok at h
  cases hg : toks[pos]? with
  | none => simp [hg] at h; exact h.symm
  | some t => simp [hg] at h

/-- A successful `expect` consumed exactly one token, which was in range
and equal to the expected one. -/
theorem expectF_ok {toks : List Token} {pos : Nat} {exp : Token} {q : Nat}
    (h : expectF toks pos exp = .ok q) :
    q = pos + 1 ∧ toks[pos]? = some exp := by
  unfold expectF at h
  cases hc : currentTok toks pos with
  | error e => simp [hc] at h
  | ok t =>
    simp only [hc] at h
    by_cases ht : tokenEq t exp = true
    · simp [ht] at h
      rcases tokenEq_eq ht with rfl
      exact ⟨h.symm, currentTok_ok_iff.mp hc⟩
    · simp [Bool.not_eq_true] at ht
      simp [ht] at h

/-- On success, every parser routine leaves the cursor at or after its
starting point (strictly after, except for the two while-loop states) and
within the token vector. -/
theorem runP_progress (toks : List Token) :
    ∀ f tag n p', runP toks f tag = .ok (n, p') →
      tagLo tag ≤ p' ∧ p' ≤ toks.length := by
  intro f
  induction f with
  | zero => intro tag n p' h; simp [runP] at h
  | succ f ih =>
    intro tag n p' h
    cases tag with
    | expr pos =>
      simp only [runP] at h
      have h2 := ih _ _ _ h
      simp only [tagLo] at h2 ⊢
      exact h2
    | term pos =>
      simp only [runP] at h
      cases hf : runP toks f (.factor pos) with
      | error e => simp [hf] at h
      | ok r =>
        obtain ⟨m, p2⟩ := r
        simp only [hf] at h
        have h1 := ih _ _ _ hf
        have h2 := ih _ _ _ h
        simp only [tagLo] at h1 h2 ⊢
        omega
    | termLoop n0 p =>
      simp only [runP] at h
      cases hc : currentTok toks p with
      | error e => simp [hc] at h
      | ok t =>
        have hp : p < toks.length := currentTok_lt hc
        cases t <;> simp only [hc] at h
        case Plus | Minus =>
          cases hf : runP toks f (.factor (p + 1)) with
          | error e => simp [hf] at h
          | ok r =>
            obtain ⟨m, p2⟩ := r
            simp only [hf] at h
            have h1 := ih _ _ _ hf
            have h2 := ih _ _ _ h
            simp only [tagLo] at h1 h2 ⊢
            omega
        all_goals
          simp only [Except.ok.injEq, Prod.mk.injEq] at h
          simp only [tagLo, ← h.2]
          omega
    | factor pos =>
      simp only [runP] at h
      cases hf : runP toks f (.primary pos) with
      | error e => simp [hf] at h
      | ok r =>
        obtain ⟨m, p2⟩ := r
        simp only [hf] at h
        have h1 := ih _ _ _ hf
        have h2 := ih _ _ _ h
        simp only [tagLo] at h1 h2 ⊢
        omega
    | factorLoop n0 p =>
      simp only [runP] at h
      cases hc : currentTok toks p with
      | error e => simp [hc] at h
      | ok t =>
        have hp : p < toks.length := currentTok_lt hc
        cases t <;> simp only [hc] at h
        case Mul | Div =>
          cases hf : runP toks f (.primary (p + 1)) with
          | error e => simp [hf] at h
          | ok r =>
            obtain ⟨m, p2⟩ := r
            simp only [hf] at h
            have h1 := ih _ _ _ hf
            have h2 := ih _ _ _ h
            simp only [tagLo] at h1 h2 ⊢
            omega
        all_goals
          simp only [Except.ok.injEq, Prod.mk.injEq] at h
          simp only [tagLo, ← h.2]
          omega
    | primary pos =>
      simp only [runP] at h
      cases hc : currentTok toks pos with
      | error e => simp [hc] at h
      | ok t =>
        have hp : pos < toks.length := currentTok_lt hc
        cases t <;> simp only [hc] at h
        case Number v =>
          simp only [Except.ok.injEq, Prod.mk.injEq] at h
          simp only [tagLo, ← h.2]
          omega
        case LParen =>
          cases he : runP toks f (.expr (pos + 1)) with
          | error e => simp [he] at h
          | ok r =>
            obtain ⟨m, p2⟩ := r
            simp only [he] at h
            cases hx : expectF toks p2 .RParen with
            | error e => simp [hx] at h
            | ok q =>
              simp only [hx, Except.ok.injEq, Prod.mk.injEq] at h
              have h1 := ih _ _ _ he
              obtain ⟨hq, hin⟩ := expectF_ok hx
              have hr2 : p2 < toks.length :=
                (List.getElem?_eq_some_iff.mp hin).1
              simp only [tagLo] at h1 ⊢
              omega
        all_goals simp at h

/-- The only failures of `expect` are the out-of-range panic and the
expected-vs-actual report. -/
theorem expectF_err {toks : List Token} {pos : Nat} {exp : Token} {e : PErr}
    (h : expectF toks pos exp = .error e) :
    e = .outOfRange pos ∨ ∃ t, e = .expectedFound exp t := by
  unfold expectF at h
  cases hc : currentTok toks pos with
  | error e2 =>
    rw [hc] at h
    simp only [Except.error.injEq] at h
    exact Or.inl (h ▸ currentTok_err hc)
  | ok t =>
    rw [hc] at h
    by_cases ht : tokenEq t exp = true
    · simp [ht] at h
    · simp only [Bool.not_eq_true] at ht
      simp only [ht, Bool.false_eq_true, if_false, Except.error.injEq] at h
      exact Or.inr ⟨t, h.symm⟩

/-- The fuel prescribed by `tagNeed` is enough: a routine run with at least
that much fuel never exhausts it. -/
theorem runP_adequate (toks : List Token) :
    ∀ f tag, tagNeed toks.length tag ≤ f →
      runP toks f tag ≠ .error .fuelOut := by
  intro f
  induction f with
  | zero => intro tag hn; cases tag <;> simp [tagNeed] at hn
  | succ f ih =>
    intro tag hn hcon
    cases tag with
    | expr pos =>
      simp only [runP] at hcon
      exact ih (.term pos) (by simp only [tagNeed] at hn ⊢; omega) hcon
    | term pos =>
      simp only [runP] at hcon
      cases hf : runP toks f (.factor pos) with
      | error e =>
        simp only [hf, Except.error.injEq] at hcon
        subst hcon
        exact ih (.factor pos) (by simp only [tagNeed] at hn ⊢; omega) hf
      | ok r =>
        obtain ⟨m, p2⟩ := r
        simp only [hf] at hcon
        have h1 := runP_progress toks f _ _ _ hf
        simp only [tagLo] at h1
        exact ih (.termLoop m p2)
          (by simp only [tagNeed] at hn ⊢; omega) hcon
    | termLoop n0 p =>
      simp only [runP] at hcon
      cases hc : currentTok toks p with
      | error e =>
        simp only [hc, Except.error.injEq] at hcon
        subst hcon
        exact absurd (currentTok_err hc) (by simp)
      | ok t =>
        have hp : p < toks.length := currentTok_lt hc
        cases t <;> simp only [hc] at hcon
        case Plus | Minus =>
          cases hf : runP toks f (.factor (p + 1)) with
          | error e =>
            simp only [hf, Except.error.injEq] at hcon
            subst hcon
            exact ih (.factor (p + 1))
              (by simp only [tagNeed] at hn ⊢; omega) hf
          | ok r =>
            obtain ⟨m, p2⟩ := r
            simp only [hf] at hcon
            have h1 := runP_progress toks f _ _ _ hf
            simp only [tagLo] at h1
            exact ih (.termLoop _ p2)
              (by simp only [tagNeed] at hn ⊢; omega) hcon
        all_goals simp at hcon
    | factor pos =>
      simp only [runP] at hcon
      cases hf : runP toks f (.primary pos) with
      | error e =>
        simp only [hf, Except.error.injEq] at hcon
        subst hcon
        exact ih (.primary pos) (by simp only [tagNeed] at hn ⊢; omega) hf
      | ok r =>
        obtain ⟨m, p2⟩ := r
        simp only [hf] at hcon
        have h1 := runP_progress toks f _ _ _ hf
        simp only [tagLo] at h1
        exact ih (.factorLoop m p2)
          (by simp only [tagNeed] at hn ⊢; omega) hcon
    | factorLoop n0 p =>
      simp only [runP] at hcon
      cases hc : currentTok toks p with
      | error e =>
        simp only [hc, Except.error.injEq] at hcon
        subst hcon
        exact absurd (currentTok_err hc) (by simp)
      | ok t =>
        have hp : p < toks.length := currentTok_lt hc
        cases t <;> simp only [hc] at hcon
        case Mul | Div =>
          cases hf : runP toks f (.primary (p + 1)) with
          | error e =>
            simp only [hf, Except.error.injEq] at hcon
            subst hcon
            exact ih (.primary (p + 1))
              (by simp only [tagNeed] at hn ⊢; omega) hf
          | ok r =>
            obtain ⟨m, p2⟩ := r
            simp only [hf] at hcon
            have h1 := runP_progress toks f _ _ _ hf
            simp only [tagLo] at h1
            exact ih (.factorLoop _ p2)
              (by simp only [tagNeed] at hn ⊢; omega) hcon
        all_goals simp at hcon
    | primary pos =>
      simp only [runP] at hcon
      cases hc : currentTok toks pos with
      | error e =>
        simp only [hc, Except.error.injEq] at hcon
        subst hcon
        exact absurd (currentTok_err hc) (by simp)
      | ok t =>
        have hp : pos < toks.length := currentTok_lt hc
        cases t <;> simp only [hc] at hcon
        case LParen =>
          cases he : runP toks f (.expr (pos + 1)) with
          | error e =>
            simp only [he, Except.error.injEq] at hcon
            subst hcon
            exact ih (.expr (pos + 1))
              (by simp only [tagNeed] at hn ⊢; omega) he
          | ok r =>
            obtain ⟨m, p2⟩ := r
            simp only [he] at hcon
            cases hx : expectF toks p2 .RParen with
            | ok q => simp [hx] at hcon
            | error e =>
              simp only [hx, Except.error.injEq] at hcon
              subst hcon
              rcases expectF_err hx with h | ⟨t, h⟩ <;> simp at h
        all_goals simp at hcon

/-- Reading the current token is unaffected by tokens appended after the
cursor's vector when the read succeeded. -/
theorem currentTok_append {toks ext : List Token} {pos : Nat} {t : Token}
    (h : currentTok toks pos = .ok t) :
    currentTok (toks ++ ext) pos = .ok t := by
  have hp : pos < toks.length := currentTok_lt h
  rw [currentTok_ok_iff] at h ⊢
  rw [List.getElem?_append_left hp]
  exact h

/-- A successful `expect` is unaffected by appended trailing tokens. -/
theorem expectF_append {toks ext : List Token} {pos : Nat} {exp : Token}
    {q : Nat} (h : expectF toks pos exp = .ok q) :
    expectF (toks ++ ext) pos exp = .ok q := by
  unfold expectF at h ⊢
  cases hc : currentTok toks pos with
  | error e => rw [hc] at h; simp at h
  | ok t =>
    rw [hc] at h
    rw [currentTok_append hc]
    by_cases ht : tokenEq t exp = true
    · simpa [ht] using h
    · simp only [Bool.not_eq_true] at ht
      simp [ht] at h

/-- Locality of the parser: a successful routine run is unchanged by any
tokens appended after the token vector — the parser never looks past the
positions it consumed. -/
theorem runP_append (toks ext : List Token) :
    ∀ f tag r, runP toks f tag = .ok r → runP (toks ++ ext) f tag = .ok r := by
  intro f
  induction f with
  | zero => intro tag r h; simp [runP] at h
  | succ f ih =>
    intro tag r h
    cases tag with
    | expr pos =>
      simp only [runP] at h ⊢
      exact ih _ _ h
    | term pos =>
      simp only [runP] at h ⊢
      cases hf : runP toks f (.factor pos) with
      | error e => simp [hf] at h
      | ok r2 =>
        obtain ⟨m, p2⟩ := r2
        simp only [hf] at h
        rw [ih _ _ hf]
        exact ih _ _ h
    | termLoop n0 p =>
      simp only [runP] at h ⊢
      cases hc : currentTok toks p with
      | error e => simp [hc] at h
      | ok t =>
        rw [currentTok_append hc]
        cases t <;> simp only [hc] at h
        case Plus | Minus =>
          cases hf : runP toks f (.factor (p + 1)) with
          | error e => simp [hf] at h
          | ok r2 =>
            obtain ⟨m, p2⟩ := r2
            simp only [hf] at h
            rw [ih _ _ hf]
            exact ih _ _ h
        all_goals exact h
    | factor pos =>
      simp only [runP] at h ⊢
      cases hf : runP toks f (.primary pos) with
      | error e => simp [hf] at h
      | ok r2 =>
        obtain ⟨m, p2⟩ := r2
        simp only [hf] at h
        rw [ih _ _ hf]
        exact ih _ _ h
    | factorLoop n0 p =>
      simp only [runP] at h ⊢
      cases hc : currentTok toks p with
      | error e => simp [hc] at h
      | ok t =>
        rw [currentTok_append hc]
        cases t <;> simp only [hc] at h
        case Mul | Div =>
          cases hf : runP toks f (.primary (p + 1)) with
          | error e => simp [hf] at h
          | ok r2 =>
            obtain ⟨m, p2⟩ := r2
            simp only [hf] at h
            rw [ih _ _ hf]
            exact ih _ _ h
        all_goals exact h
    | primary pos =>
      simp only [runP] at h ⊢
      cases hc : currentTok toks pos with
      | error e => simp [hc] at h
      | ok t =>
        rw [currentTok_append hc]
        cases t <;> simp only [hc] at h
        case Number v => exact h
        case LParen =>
          cases he : runP toks f (.expr (pos + 1)) with
          | error e => simp [he] at h
          | ok r2 =>
            obtain ⟨m, p2⟩ := r2
            simp only [he] at h
            rw [ih _ _ he]
            dsimp only
            cases hx : expectF toks p2 .RParen with
            | error e => simp [hx] at h
            | ok q =>
              simp only [hx] at h
              rw [expectF_append hx]
              exact h
        all_goals simp at h

/-- Fuel monotonicity: once a routine finishes (successfully or with a real
error) under some fuel, any larger fuel gives the same result. -/
theorem runP_mono (toks : List Token) :
    ∀ f g tag, f ≤ g → runP toks f tag ≠ .error .fuelOut →
      runP toks g tag = runP toks f tag := by
  intro f
  induction f with
  | zero => intro g tag _ hne; simp [runP] at hne
  | succ f ih =>
    intro g tag hle hne
    obtain ⟨g', rfl⟩ : ∃ g', g = g' + 1 := ⟨g - 1, by omega⟩
    have hle' : f ≤ g' := by omega
    cases tag with
    | expr pos =>
      simp only [runP] at hne ⊢
      exact ih g' _ hle' hne
    | term pos =>
      simp only [runP] at hne ⊢
      cases hf : runP toks f (.factor pos) with
      | error e =>
        have hef : e ≠ .fuelOut := by
          intro hcon
          exact hne (by simp [hf, hcon])
        rw [ih g' _ hle' (by simp [hf, hef]), hf]
      | ok r2 =>
        obtain ⟨m, p2⟩ := r2
        rw [ih g' _ hle' (by simp [hf]), hf]
        simp only [hf] at hne
        exact ih g' _ hle' hne
    | termLoop n0 p =>
      simp only [runP] at hne ⊢
      cases hc : currentTok toks p with
      | error e => rfl
      | ok t =>
        cases t
        case Plus | Minus =>
          dsimp only
          cases hf : runP toks f (.factor (p + 1)) with
          | error e =>
            have hef : e ≠ .fuelOut := by
              intro hcon
              exact hne (by simp [hc, hf, hcon])
            rw [ih g' _ hle' (by simp [hf, hef]), hf]
          | ok r2 =>
            obtain ⟨m, p2⟩ := r2
            rw [ih g' _ hle' (by simp [hf]), hf]
            simp only [hc, hf] at hne
            exact ih g' _ hle' hne
        all_goals rfl
    | factor pos =>
      simp only [runP] at hne ⊢
      cases hf : runP toks f (.primary pos) with
      | error e =>
        have hef : e ≠ .fuelOut := by
          intro hcon
          exact hne (by simp [hf, hcon])
        rw [ih g' _ hle' (by simp [hf, hef]), hf]
      | ok r2 =>
        obtain ⟨m, p2⟩ := r2
        rw [ih g' _ hle' (by simp [hf]), hf]
        simp only [hf] at hne
        exact ih g' _ hle' hne
    | factorLoop n0 p =>
      simp only [runP] at hne ⊢
      cases hc : currentTok toks p with
      | error e => rfl
      | ok t =>
        cases t
        case Mul | Div =>
          dsimp only
          cases hf : runP toks f (.primary (p + 1)) with
          | error e =>
            have hef : e ≠ .fuelOut := by
              intro hcon
              exact hne (by simp [hc, hf, hcon])
            rw [ih g' _ hle' (by simp [hf, hef]), hf]
          | ok r2 =>
            obtain ⟨m, p2⟩ := r2
            rw [ih g' _ hle' (by simp [hf]), hf]
            simp only [hc, hf] at hne
            exact ih g' _ hle' hne
        all_goals rfl
    | primary pos =>
      simp only [runP] at hne ⊢
      cases hc : currentTok toks pos with
      | error e => rfl
      | ok t =>
        cases t
        case LParen =>
          dsimp only
          cases he : runP toks f (.expr (pos + 1)) with
          | error e =>
            have hef : e ≠ .fuelOut := by
              intro hcon
              exact hne (by simp [hc, he, hcon])
            rw [ih g' _ hle' (by simp [he, hef]), he]
          | ok r2 =>
            obtain ⟨m, p2⟩ := r2
            rw [ih g' _ hle' (by simp [he]), he]
        all_goals rfl

/-- Every node a parser routine returns satisfies the AST invariant
(provided the node the while-loop states carry does). -/
theorem runP_wfAST (toks : List Token) :
    ∀ f tag n p', tagWf tag = true → runP toks f tag = .ok (n, p') →
      wfAST n = true := by
  intro f
  induction f with
  | zero => intro tag n p' _ h; simp [runP] at h
  | succ f ih =>
    intro tag n p' hwf h
    cases tag with
    | expr pos =>
      simp only [runP] at h
      exact ih _ _ _ (by simp [tagWf]) h
    | term pos =>
      simp only [runP] at h
      cases hf : runP toks f (.factor pos) with
      | error e => simp [hf] at h
      | ok r2 =>
        obtain ⟨m, p2⟩ := r2
        simp only [hf] at h
        have hm : wfAST m = true := ih _ _ _ (by simp [tagWf]) hf
        exact ih _ _ _ (by simp [tagWf, hm]) h
    | termLoop n0 p =>
      simp only [runP] at h
      simp only [tagWf] at hwf
      cases hc : currentTok toks p with
      | error e => simp [hc] at h
      | ok t =>
        cases t <;> simp only [hc] at h
        case Plus | Minus =>
          cases hf : runP toks f (.factor (p + 1)) with
          | error e => simp [hf] at h
          | ok r2 =>
            obtain ⟨m, p2⟩ := r2
            simp only [hf] at h
            have hm : wfAST m = true := ih _ _ _ (by simp [tagWf]) hf
            exact ih _ _ _
              (by simp [tagWf, wfAST, arithTok, hwf, hm]) h
        all_goals
          simp only [Except.ok.injEq, Prod.mk.injEq] at h
          exact h.1 ▸ hwf
    | factor pos =>
      simp only [runP] at h
      cases hf : runP toks f (.primary pos) with
      | error e => simp [hf] at h
      | ok r2 =>
        obtain ⟨m, p2⟩ := r2
        simp only [hf] at h
        have hm : wfAST m = true := ih _ _ _ (by simp [tagWf]) hf
        exact ih _ _ _ (by simp [tagWf, hm]) h
    | factorLoop n0 p =>
      simp only [runP] at h
      simp only [tagWf] at hwf
      cases hc : currentTok toks p with
      | error e => simp [hc] at h
      | ok t =>
        cases t <;> simp only [hc] at h
        case Mul | Div =>
          cases hf : runP toks f (.primary (p + 1)) with
          | error e => simp [hf] at h
          | ok r2 =>
            obtain ⟨m, p2⟩ := r2
            simp only [hf] at h
            have hm : wfAST m = true := ih _ _ _ (by simp [tagWf]) hf
            exact ih _ _ _
              (by simp [tagWf, wfAST, arithTok, hwf, hm]) h
        all_goals
          simp only [Except.ok.injEq, Prod.mk.injEq] at h
          exact h.1 ▸ hwf
    | primary pos =>
      simp only [runP] at h
      cases hc : currentTok toks pos with
      | error e => simp [hc] at h
      | ok t =>
        cases t <;> simp only [hc] at h
        case Number v =>
          simp only [Except.ok.injEq, Prod.mk.injEq] at h
          exact h.1 ▸ rfl
        case LParen =>
          cases he : runP toks f (.expr (pos + 1)) with
          | error e => simp [he] at h
          | ok r2 =>
            obtain ⟨m, p2⟩ := r2
            simp only [he] at h
            cases hx : expectF toks p2 .RParen with
            | error e => simp [hx] at h
            | ok q =>
              simp only [hx, Except.ok.injEq, Prod.mk.injEq] at h
              have hm : wfAST m = true := ih _ _ _ (by simp [tagWf]) he
              exact h.1 ▸ hm
        all_goals simp at h

/-- The evaluator is total on well-formed ASTs: the fallback arm modelled
by `none` is never reached. -/
theorem interpret_total : ∀ a, wfAST a = true → ∃ v, interpret a = some v := by
  intro a
  induction a with
  | Number v => exact fun _ => ⟨v, rfl⟩
  | BinaryOp l op r ihl ihr =>
    intro h
    simp only [wfAST, Bool.and_eq_true] at h
    obtain ⟨⟨hop, hl⟩, hr⟩ := h
    obtain ⟨lv, hlv⟩ := ihl hl
    obtain ⟨rv, hrv⟩ := ihr hr
    cases op <;> simp [arithTok] at hop
    case Plus => exact ⟨F64.add lv rv, by simp [interpret, hlv, hrv]⟩
    case Minus => exact ⟨F64.sub lv rv, by simp [interpret, hlv, hrv]⟩
    case Mul => exact ⟨F64.mul lv rv, by simp [interpret, hlv, hrv]⟩
    case Div => exact ⟨F64.div lv rv, by simp [interpret, hlv, hrv]⟩

/-- C3: every Binary-operation node the parser produces carries one of the
four arithmetic operator tokens (never a parenthesis, number or
end-of-input token), so the evaluator's fallback arm is unreachable and
evaluation is total on every parser-produced AST. -/
theorem c3_ast_invariant_evaluator_total :
    ∀ toks a, parse toks = .ok a →
      wfAST a = true ∧ ∃ v, interpret a = some v := by
  intro toks a h
  unfold parse expression at h
  cases hr : runP toks (parseFuel toks) (.expr 0) with
  | error e => rw [hr] at h; simp [Except.map] at h
  | ok r =>
    rw [hr] at h
    obtain ⟨m, p2⟩ := r
    simp only [Except.map, Except.ok.injEq] at h
    subst h
    have hwf := runP_wfAST toks _ _ _ _ (by simp [tagWf]) hr
    exact ⟨hwf, interpret_total _ hwf⟩

/-- C3 witness: the pipeline on the token sequence of the line `3`. -/
theorem c3_witness :
    wfAST (ASTNode.Number (.finite 3)) = true ∧
      ∃ v, interpret (ASTNode.Number (.finite 3)) = some v :=
  c3_ast_invariant_evaluator_total [.Number (.finite 3), .EOF] _ rfl

/-- C6: the parser's top-level entry point does not require the
end-of-input token to follow the parsed expression: whatever tokens are
appended after a successfully parsed sequence, `parse` still returns the
same AST (trailing tokens are silently ignored); concretely, lexing and
parsing `3 4` returns the leaf for 3 without error. -/
theorem c6_trailing_tokens_ignored :
    (∀ ts ext a, parse ts = .ok a → parse (ts ++ ext) = .ok a) ∧
    getTokens "3 4".toList =
      .ok [.Number (.finite 3), .Number (.finite 4), .EOF] ∧
    parse [.Number (.finite 3), .Number (.finite 4), .EOF] =
      .ok (.Number (.finite 3)) ∧
    runLine "3 4".toList = .ok (.finite 3) := by
  refine ⟨?_, rfl, rfl, rfl⟩
  intro ts ext a h
  unfold parse expression at h ⊢
  cases hr : runP ts (parseFuel ts) (.expr 0) with
  | error e => rw [hr] at h; simp [Except.map] at h
  | ok r =>
    rw [hr] at h
    simp only [Except.map, Except.ok.injEq] at h
    have h1 := runP_append ts ext _ _ _ hr
    have h2 : parseFuel ts ≤ parseFuel (ts ++ ext) := by
      simp only [parseFuel, List.length_append]
      omega
    have h3 := runP_mono (ts ++ ext) (parseFuel ts) (parseFuel (ts ++ ext))
      (.expr 0) h2 (by rw [h1]; simp)
    rw [h3, h1]
    simp [Except.map, h]

/-- C6 witness: parsing `3` with stray tokens appended still yields the
leaf for 3. -/
theorem c6_witness :
    parse ([.Number (.finite 3), .EOF] ++ [.RParen, .RParen]) =
      .ok (.Number (.finite 3)) :=
  c6_trailing_tokens_ignored.1 _ _ _ rfl

/-- C8: `expect` consumes the current token exactly when it equals (by the
derived token equality) the expected one, and otherwise fails reporting
expected versus actual; concretely, the pipeline on `(3 plus 4` fails
citing an expected right-parenthesis against the actual end-of-input
token. -/
theorem c8_expect_missing_rparen :
    (∀ toks pos exp t, toks[pos]? = some t →
      (tokenEq t exp = true → expectF toks pos exp = .ok (pos + 1)) ∧
      (tokenEq t exp = false →
        expectF toks pos exp = .error (.expectedFound exp t))) ∧
    runLine "(3 plus 4".toList =
      .error (.parseErr (.expectedFound .RParen .EOF)) := by
  refine ⟨?_, rfl⟩
  intro toks pos exp t ht
  have hc : currentTok toks pos = .ok t := currentTok_ok_iff.mpr ht
  constructor
  · intro he
    unfold expectF
    rw [hc]
    simp [he]
  · intro he
    unfold expectF
    rw [hc]
    simp [he]

/-- C8 witness: `expect` at a matching right-parenthesis consumes it. -/
theorem c8_witness : expectF [.RParen] 0 .RParen = .ok 1 :=
  ((c8_expect_missing_rparen.1 [.RParen] 0 .RParen .RParen rfl).1) rfl

/-- With the cursor at or before the final token, `current_token` always
succeeds. -/
theorem eof_current (ts' : List Token) {pos : Nat} (hpos : pos ≤ ts'.length) :
    ∃ t, currentTok (ts' ++ [Token.EOF]) pos = .ok t := by
  cases hg : (ts' ++ [Token.EOF])[pos]? with
  | none =>
    rw [List.getElem?_eq_none_iff, List.length_append] at hg
    simp at hg
    omega
  | some t => exact ⟨t, currentTok_ok_iff.mpr hg⟩

/-- In a token sequence with a single trailing end-of-input token, any
position holding a different token lies strictly before the last slot. -/
theorem eof_tok_lt (ts' : List Token) {pos : Nat} {t : Token}
    (h : (ts' ++ [Token.EOF])[pos]? = some t) (ht : t ≠ .EOF) :
    pos < ts'.length := by
  rcases Nat.lt_trichotomy pos ts'.length with hlt | heq | hgt
  · exact hlt
  · subst heq
    rw [List.getElem?_concat_length] at h
    simp at h
    exact absurd h.symm ht
  · rw [List.getElem?_eq_none (by simp [List.length_append]; omega)] at h
    cases h

/-- With the cursor at or before the final end-of-input token, `expect`
never takes the out-of-range panic, and on success leaves the cursor at or
before that final token. -/
theorem eof_expect (ts' : List Token) {pos : Nat} (hpos : pos ≤ ts'.length) :
    (∀ i, expectF (ts' ++ [Token.EOF]) pos .RParen ≠
      .error (.outOfRange i)) ∧
    (∀ q, expectF (ts' ++ [Token.EOF]) pos .RParen = .ok q →
      q ≤ ts'.length) := by
  obtain ⟨t, hc⟩ := eof_current ts' hpos
  constructor
  · intro i hcon
    unfold expectF at hcon
    rw [hc] at hcon
    by_cases ht : tokenEq t .RParen = true
    · simp [ht] at hcon
    · simp only [Bool.not_eq_true] at ht
      simp [ht] at hcon
  · intro q hq
    obtain ⟨hq1, hq2⟩ := expectF_ok hq
    have : pos < ts'.length := eof_tok_lt ts' hq2 (by simp)
    omega

/-- In a token sequence consisting of EOF-free tokens followed by a single
end-of-input token — the shape the lexer guarantees — no parser routine
started at or before the final token ever takes the out-of-range panic,
and on success it leaves the cursor at or before the final token. -/
theorem runP_eof_safe (ts' : List Token) :
    ∀ f tag, tagPos tag ≤ ts'.length →
      (∀ i, runP (ts' ++ [Token.EOF]) f tag ≠ .error (.outOfRange i)) ∧
      (∀ n p', runP (ts' ++ [Token.EOF]) f tag = .ok (n, p') →
        p' ≤ ts'.length) := by
  intro f
  induction f with
  | zero =>
    intro tag hpos
    exact ⟨fun i h => by simp [runP] at h, fun n p' h => by simp [runP] at h⟩
  | succ f ih =>
    intro tag hpos
    cases tag with
    | expr pos =>
      simp only [runP]
      exact ih (.term pos) hpos
    | term pos =>
      simp only [runP]
      obtain ⟨ihf1, ihf2⟩ := ih (.factor pos) hpos
      constructor
      · intro i hcon
        cases hf : runP (ts' ++ [Token.EOF]) f (.factor pos) with
        | error e =>
          simp only [hf, Except.error.injEq] at hcon
          exact ihf1 i (by rw [hf, hcon])
        | ok r =>
          obtain ⟨m, p2⟩ := r
          simp only [hf] at hcon
          exact (ih (.termLoop m p2) (ihf2 _ _ hf)).1 i hcon
      · intro n p' h
        cases hf : runP (ts' ++ [Token.EOF]) f (.factor pos) with
        | error e => simp [hf] at h
        | ok r =>
          obtain ⟨m, p2⟩ := r
          simp only [hf] at h
          exact (ih (.termLoop m p2) (ihf2 _ _ hf)).2 _ _ h
    | termLoop n0 p =>
      have hp2 : p ≤ ts'.length := hpos
      obtain ⟨t, hc⟩ := eof_current ts' hp2
      simp only [runP, hc]
      cases t
      case Plus | Minus =>
        have hlt : p < ts'.length :=
          eof_tok_lt ts' (currentTok_ok_iff.mp hc) (by simp)
        obtain ⟨ihf1, ihf2⟩ := ih (.factor (p + 1)) (by simpa [tagPos] using hlt)
        constructor
        · intro i hcon
          cases hf : runP (ts' ++ [Token.EOF]) f (.factor (p + 1)) with
          | error e =>
            simp only [hf, Except.error.injEq] at hcon
            exact ihf1 i (by rw [hf, hcon])
          | ok r =>
            obtain ⟨m, p2⟩ := r
            simp only [hf] at hcon
            exact (ih (.termLoop _ p2) (ihf2 _ _ hf)).1 i hcon
        · intro n p' h
          cases hf : runP (ts' ++ [Token.EOF]) f (.factor (p + 1)) with
          | error e => simp [hf] at h
          | ok r =>
            obtain ⟨m, p2⟩ := r
            simp only [hf] at h
            exact (ih (.termLoop _ p2) (ihf2 _ _ hf)).2 _ _ h
      all_goals
        exact ⟨fun i hcon => by simp at hcon,
          fun n p' h => by
            simp only [Except.ok.injEq, Prod.mk.injEq] at h
            omega⟩
    | factor pos =>
      simp only [runP]
      obtain ⟨ihf1, ihf2⟩ := ih (.primary pos) hpos
      constructor
      · intro i hcon
        cases hf : runP (ts' ++ [Token.EOF]) f (.primary pos) with
        | error e =>
          simp only [hf, Except.error.injEq] at hcon
          exact ihf1 i (by rw [hf, hcon])
        | ok r =>
          obtain ⟨m, p2⟩ := r
          simp only [hf] at hcon
          exact (ih (.factorLoop m p2) (ihf2 _ _ hf)).1 i hcon
      · intro n p' h
        cases hf : runP (ts' ++ [Token.EOF]) f (.primary pos) with
        | error e => simp [hf] at h
        | ok r =>
          obtain ⟨m, p2⟩ := r
          simp only [hf] at h
          exact (ih (.factorLoop m p2) (ihf2 _ _ hf)).2 _ _ h
    | factorLoop n0 p =>
      have hp2 : p ≤ ts'.length := hpos
      obtain ⟨t, hc⟩ := eof_current ts' hp2
      simp only [runP, hc]
      cases t
      case Mul | Div =>
        have hlt : p < ts'.length :=
          eof_tok_lt ts' (currentTok_ok_iff.mp hc) (by simp)
        obtain ⟨ihf1, ihf2⟩ := ih (.primary (p + 1)) (by simpa [tagPos] using hlt)
        constructor
        · intro i hcon
          cases hf : runP (ts' ++ [Token.EOF]) f (.primary (p + 1)) with
          | error e =>
            simp only [hf, Except.error.injEq] at hcon
            exact ihf1 i (by rw [hf, hcon])
          | ok r =>
            obtain ⟨m, p2⟩ := r
            simp only [hf] at hcon
            exact (ih (.factorLoop _ p2) (ihf2 _ _ hf)).1 i hcon
        · intro n p' h
          cases hf : runP (ts' ++ [Token.EOF]) f (.primary (p + 1)) with
          | error e => simp [hf] at h
          | ok r =>
            obtain ⟨m, p2⟩ := r
            simp only [hf] at h
            exact (ih (.factorLoop _ p2) (ihf2 _ _ hf)).2 _ _ h
      all_goals
        exact ⟨fun i hcon => by simp at hcon,
          fun n p' h => by
            simp only [Except.ok.injEq, Prod.mk.injEq] at h
            omega⟩
    | primary pos =>
      have hp2 : pos ≤ ts'.length := hpos
      obtain ⟨t, hc⟩ := eof_current ts' hp2
      simp only [runP, hc]
      cases t
      case Number v =>
        have hlt : pos < ts'.length :=
          eof_tok_lt ts' (currentTok_ok_iff.mp hc) (by simp)
        exact ⟨fun i hcon => by simp at hcon,
          fun n p' h => by
            simp only [Except.ok.injEq, Prod.mk.injEq] at h
            omega⟩
      case LParen =>
        have hlt : pos < ts'.length :=
          eof_tok_lt ts' (currentTok_ok_iff.mp hc) (by simp)
        obtain ⟨ihe1, ihe2⟩ := ih (.expr (pos + 1)) (by simpa [tagPos] using hlt)
        constructor
        · intro i hcon
          cases he : runP (ts' ++ [Token.EOF]) f (.expr (pos + 1)) with
          | error e =>
            simp only [he, Except.error.injEq] at hcon
            exact ihe1 i (by rw [he, hcon])
          | ok r =>
            obtain ⟨m, p2⟩ := r
            simp only [he] at hcon
            cases hx : expectF (ts' ++ [Token.EOF]) p2 .RParen with
            | error e =>
              simp only [hx, Except.error.injEq] at hcon
              exact (eof_expect ts' (ihe2 _ _ he)).1 i (by rw [hx, hcon])
            | ok q => simp [hx] at hcon
        · intro n p' h
          cases he : runP (ts' ++ [Token.EOF]) f (.expr (pos + 1)) with
          | error e => simp [he] at h
          | ok r =>
            obtain ⟨m, p2⟩ := r
            simp only [he] at h
            cases hx : expectF (ts' ++ [Token.EOF]) p2 .RParen with
            | error e => simp [hx] at h
            | ok q =>
              simp only [hx, Except.ok.injEq, Prod.mk.injEq] at h
              have := (eof_expect ts' (ihe2 _ _ he)).2 q hx
              omega
      all_goals
        exact ⟨fun i hcon => by simp at hcon, fun n p' h => by simp at h⟩

/-- C9: on a token sequence of EOF-free tokens followed by exactly one
end-of-input token (the shape the lexer guarantees), the parser's cursor
never moves past the position of that final token and `current_token`
never indexes out of the token vector: every failure of `parse` is a
reported unexpected-token or expected-versus-actual error, never the
out-of-range access (and never fuel exhaustion of the embedding). -/
theorem c9_parser_never_out_of_range :
    ∀ ts' : List Token, Token.EOF ∉ ts' →
      (∀ e, parse (ts' ++ [Token.EOF]) = .error e →
        (∃ t, e = .unexpectedToken t) ∨ ∃ a b, e = .expectedFound a b) ∧
      (∀ f a p', expression (ts' ++ [Token.EOF]) f 0 = .ok (a, p') →
        p' ≤ ts'.length) := by
  intro ts' _
  constructor
  · intro e h
    unfold parse expression at h
    cases hr : runP (ts' ++ [Token.EOF])
        (parseFuel (ts' ++ [Token.EOF])) (.expr 0) with
    | ok r => rw [hr] at h; simp [Except.map] at h
    | error e2 =>
      rw [hr] at h
      simp only [Except.map, Except.error.injEq] at h
      subst h
      cases e2 with
      | unexpectedToken t => exact Or.inl ⟨t, rfl⟩
      | expectedFound a b => exact Or.inr ⟨a, b, rfl⟩
      | outOfRange i =>
        exact absurd hr
          ((runP_eof_safe ts' _ (.expr 0) (Nat.zero_le _)).1 i)
      | fuelOut =>
        exact absurd hr
          (runP_adequate (ts' ++ [Token.EOF]) _ (.expr 0)
            (by simp [tagNeed, parseFuel]))
  · intro f a p' h
    exact (runP_eof_safe ts' f (.expr 0) (Nat.zero_le _)).2 _ _ h

/-- C9 witness: the parse failure on the token sequence of the line `plus`
is the reported unexpected-token error. -/
theorem c9_witness :
    (∃ t, PErr.unexpectedToken Token.Plus = PErr.unexpectedToken t) ∨
      ∃ a b, PErr.unexpectedToken Token.Plus = PErr.expectedFound a b :=
  (c9_parser_never_out_of_range [Token.Plus] (by simp)).1 _ rfl

/-! ## Lexer lemmas -/

/-- A successful `Lexer::number` emits a numeric token. -/
theorem numberF_tok {input : List Char} {f : Nat} {s s' : LexState}
    {t : Token} (h : numberF input f s = .ok (t, s')) :
    ∃ v, t = .Number v := by
  unfold numberF at h
  cases hl : numLoopF input f s with
  | error e => simp [hl] at h
  | ok s2 =>
    simp only [hl] at h
    cases hb : byteSlice input s.pos s2.pos with
    | none => simp [hb] at h
    | some run =>
      simp only [hb] at h
      cases hp : parseNum run with
      | none => simp [hp] at h
      | some v =>
        simp only [hp, Except.ok.injEq, Prod.mk.injEq] at h
        exact ⟨v, h.1.symm⟩

/-- The keyword table only returns operator tokens, never end-of-input. -/
theorem keywordTok_ne_eof {s : List Char} {t : Token}
    (h : keywordTok s = some t) : t ≠ Token.EOF := by
  unfold keywordTok at h
  split_ifs at h <;> simp at h <;> simp [← h]

/-- A successful `Lexer::identifier` emits a keyword token, never
end-of-input. -/
theorem identifierF_tok {input : List Char} {f : Nat} {s s' : LexState}
    {t : Token} (h : identifierF input f s = .ok (t, s')) :
    t ≠ Token.EOF := by
  unfold identifierF at h
  cases hl : identLoopF input f s with
  | error e => simp [hl] at h
  | ok s2 =>
    simp only [hl] at h
    cases hb : byteSlice input s.pos s2.pos with
    | none => simp [hb] at h
    | some run =>
      simp only [hb] at h
      cases hk : keywordTok run with
      | none => simp [hk] at h
      | some t2 =>
        simp only [hk, Except.ok.injEq, Prod.mk.injEq] at h
        exact h.1 ▸ keywordTok_ne_eof hk

/-- Invariant of the lexer's main loop: the tokens pushed before the final
end-of-input marker are never end-of-input themselves, so a successful
scan returns some EOF-free sequence followed by exactly one EOF. -/
theorem getTokensLoop_eof (input : List Char) :
    ∀ f s acc ts, getTokensLoopF input f s acc = .ok ts →
      (∀ t ∈ acc, t ≠ Token.EOF) →
      ∃ pre, ts = pre ++ [Token.EOF] ∧ ∀ t ∈ pre, t ≠ Token.EOF := by
  intro f
  induction f with
  | zero => intro s acc ts h _; simp [getTokensLoopF] at h
  | succ f ih =>
    intro s acc ts h hacc
    rw [getTokensLoopF] at h
    cases hcur : s.cur with
    | none =>
      simp only [hcur, Except.ok.injEq] at h
      exact ⟨acc, h.symm, hacc⟩
    | some c =>
      simp only [hcur] at h
      split_ifs at h with h1 h2 h3 h4 h5
      · cases hn : numberF input f s with
        | error e => simp [hn] at h
        | ok r =>
          obtain ⟨t, s'⟩ := r
          simp only [hn] at h
          refine ih s' (acc ++ [t]) ts h ?_
          intro t2 ht2
          rcases List.mem_append.mp ht2 with hmem | hmem
          · exact hacc t2 hmem
          · obtain ⟨v, rfl⟩ := numberF_tok hn
            simp at hmem
            simp [hmem]
      · cases ha : advanceL input s with
        | error e => simp [ha] at h
        | ok s' =>
          simp only [ha] at h
          exact ih s' acc ts h hacc
      · cases ha : advanceL input s with
        | error e => simp [ha] at h
        | ok s' =>
          simp only [ha] at h
          refine ih s' (acc ++ [.LParen]) ts h ?_
          intro t2 ht2
          rcases List.mem_append.mp ht2 with hmem | hmem
          · exact hacc t2 hmem
          · simp at hmem; simp [hmem]
      · cases ha : advanceL input s with
        | error e => simp [ha] at h
        | ok s' =>
          simp only [ha] at h
          refine ih s' (acc ++ [.RParen]) ts h ?_
          intro t2 ht2
          rcases List.mem_append.mp ht2 with hmem | hmem
          · exact hacc t2 hmem
          · simp at hmem; simp [hmem]
      · cases hn : identifierF input f s with
        | error e => simp [hn] at h
        | ok r =>
          obtain ⟨t, s'⟩ := r
          simp only [hn] at h
          refine ih s' (acc ++ [t]) ts h ?_
          intro t2 ht2
          rcases List.mem_append.mp ht2 with hmem | hmem
          · exact hacc t2 hmem
          · simp at hmem
            exact hmem ▸ identifierF_tok hn

/-- C4: whenever the lexer succeeds, the returned token sequence ends with
exactly one end-of-input token and contains no end-of-input token anywhere
else. -/
theorem c4_lexer_eof_guarantee :
    ∀ input ts, getTokens input = .ok ts →
      ∃ pre, ts = pre ++ [Token.EOF] ∧ ∀ t ∈ pre, t ≠ Token.EOF := by
  intro input ts h
  exact getTokensLoop_eof input _ _ _ _ h (by simp)

/-- C4 witness: the token sequence of the line `3`. -/
theorem c4_witness :
    ∃ pre, [Token.Number (.finite 3), Token.EOF] = pre ++ [Token.EOF] ∧
      ∀ t ∈ pre, t ≠ Token.EOF :=
  c4_lexer_eof_guarantee "3".toList _ rfl

/-- A character is a single UTF-8 byte exactly when its code point is below
128. -/
theorem utf8Size_eq_one_iff {c : Char} : c.utf8Size = 1 ↔ c.toNat < 128 := by
  have hval : (c.val ≤ UInt32.ofNatCore 0x7F (by decide)) ↔ c.toNat ≤ 127 :=
    Iff.rfl
  simp only [Char.utf8Size]
  by_cases h : c.val ≤ UInt32.ofNatCore 0x7F (by decide)
  · rw [if_pos h]
    have := hval.mp h
    constructor
    · intro _; omega
    · intro _; rfl
  · rw [if_neg h]
    have h2 : ¬ c.toNat ≤ 127 := fun hh => h (hval.mpr hh)
    split_ifs <;> constructor <;> intro h3 <;> omega

/-- ASCII in the sense of `asciiChar` is one-byte UTF-8. -/
theorem asciiChar_utf8Size {c : Char} (h : asciiChar c = true) :
    c.utf8Size = 1 := by
  simp only [asciiChar, decide_eq_true_eq] at h
  exact utf8Size_eq_one_iff.mpr h

/-- The byte length of a character list is at least its character count. -/
theorem length_le_byteLen (l : List Char) : l.length ≤ byteLen l := by
  induction l with
  | nil => simp [byteLen]
  | cons c t ih =>
    have := c.utf8Size_pos
    simp only [byteLen, List.map_cons, List.sum_cons, List.length_cons] at ih ⊢
    omega

/-- On all-ASCII input the byte length equals the character count. -/
theorem byteLen_ascii {l : List Char} (h : ∀ c ∈ l, asciiChar c = true) :
    byteLen l = l.length := by
  induction l with
  | nil => simp [byteLen]
  | cons c t ih =>
    simp only [byteLen, List.map_cons, List.sum_cons, List.length_cons]
    rw [asciiChar_utf8Size (h c (by simp))]
    have := ih fun c2 hc2 => h c2 (by simp [hc2])
    simp only [byteLen] at this
    omega

/-- Conversely, when no byte is wasted every character is ASCII. -/
theorem ascii_of_byteLen_le {l : List Char} (h : byteLen l ≤ l.length) :
    ∀ c ∈ l, asciiChar c = true := by
  induction l with
  | nil => simp
  | cons c t ih =>
    have hpos := c.utf8Size_pos
    have hlen := length_le_byteLen t
    simp only [byteLen, List.map_cons, List.sum_cons, List.length_cons] at h
    have hc : c.utf8Size = 1 := by
      simp only [byteLen] at hlen
      omega
    intro c2 hc2
    rcases List.mem_cons.mp hc2 with rfl | hmem
    · simp only [asciiChar, decide_eq_true_eq]
      exact utf8Size_eq_one_iff.mp hc
    · exact ih (by simp only [byteLen] at h ⊢; omega) c2 hmem

/-- Rust `char::is_numeric` agrees with the ASCII digit test on ASCII. -/
theorem rustIsNumeric_ascii {c : Char} (h : asciiChar c = true) :
    rustIsNumeric c = c.isDigit := by
  simp only [asciiChar, decide_eq_true_eq] at h
  have h2 : (decide (1632 ≤ c.toNat) && decide (c.toNat ≤ 1641)) = false := by
    simp only [Bool.and_eq_false_iff, decide_eq_false_iff_not]
    omega
  simp only [rustIsNumeric]
  rw [h2]
  simp

/-- Rust `char::is_alphabetic` agrees with the ASCII letter test on
ASCII. -/
theorem rustIsAlphabetic_ascii {c : Char} (h : asciiChar c = true) :
    rustIsAlphabetic c = c.isAlpha := by
  simp only [asciiChar, decide_eq_true_eq] at h
  have h2 : (decide (192 ≤ c.toNat) && decide (c.toNat ≤ 255) &&
      decide (c.toNat ≠ 215) && decide (c.toNat ≠ 247)) = false := by
    simp only [Bool.and_eq_false_iff, decide_eq_false_iff_not]
    omega
  simp only [rustIsAlphabetic]
  rw [h2]
  simp

/-- On ASCII input byte-dropping is character-dropping. -/
theorem dropBytes_ascii {l : List Char} (h : ∀ c ∈ l, asciiChar c = true) :
    ∀ n, dropBytes l n = if n ≤ l.length then some (l.drop n) else none := by
  induction l with
  | nil => intro n; cases n <;> simp [dropBytes]
  | cons c t ih =>
    intro n
    cases n with
    | zero => simp [dropBytes]
    | succ n =>
      have hc : c.utf8Size = 1 := asciiChar_utf8Size (h c (by simp))
      simp only [dropBytes, hc]
      rw [if_pos (by omega)]
      simp only [Nat.add_sub_cancel]
      rw [ih (fun c2 hc2 => h c2 (by simp [hc2])) n]
      simp only [List.length_cons, List.drop_succ_cons]
      by_cases hn : n ≤ t.length
      · rw [if_pos hn, if_pos (by omega)]
      · rw [if_neg hn, if_neg (by omega)]

/-- On ASCII input byte-taking is character-taking. -/
theorem takeBytes_ascii {l : List Char} (h : ∀ c ∈ l, asciiChar c = true) :
    ∀ n, takeBytes l n = if n ≤ l.length then some (l.take n) else none := by
  induction l with
  | nil => intro n; cases n <;> simp [takeBytes]
  | cons c t ih =>
    intro n
    cases n with
    | zero => simp [takeBytes]
    | succ n =>
      have hc : c.utf8Size = 1 := asciiChar_utf8Size (h c (by simp))
      simp only [takeBytes, hc]
      rw [if_pos (by omega)]
      simp only [Nat.add_sub_cancel]
      rw [ih (fun c2 hc2 => h c2 (by simp [hc2])) n]
      simp only [List.length_cons, List.take_succ_cons]
      by_cases hn : n ≤ t.length
      · rw [if_pos hn, if_pos (by omega)]
        simp [Option.map]
      · rw [if_neg hn, if_neg (by omega)]
        simp [Option.map]

/-- On ASCII input byte slicing is character slicing. -/
theorem byteSlice_ascii {l : List Char} (h : ∀ c ∈ l, asciiChar c = true)
    {a b : Nat} (hab : a ≤ b) (hb : b ≤ l.length) :
    byteSlice l a b = some ((l.drop a).take (b - a)) := by
  unfold byteSlice
  rw [if_pos hab, dropBytes_ascii h a, if_pos (by omega)]
  have hd : ∀ c ∈ l.drop a, asciiChar c = true :=
    fun c hc => h c (List.mem_of_mem_drop hc)
  show takeBytes (l.drop a) (b - a) = some ((l.drop a).take (b - a))
  rw [takeBytes_ascii hd (b - a),
    if_pos (by simp [List.length_drop]; omega)]

/-- On ASCII input `Lexer::advance` moves to the next character position
and never panics. -/
theorem advanceL_ascii {input : List Char}
    (h : ∀ c ∈ input, asciiChar c = true) (s : LexState) :
    advanceL input s = .ok ⟨s.pos + 1, input[s.pos + 1]?⟩ := by
  unfold advanceL
  rw [byteLen_ascii h]
  by_cases hp : s.pos + 1 < input.length
  · rw [if_pos hp]
    cases hg : input[s.pos + 1]? with
    | none =>
      rw [List.getElem?_eq_none_iff] at hg
      omega
    | some c => simp
  · rw [if_neg hp]
    rw [List.getElem?_eq_none (by omega)]

/-- A successful spec-side run splits the input into run and rest. -/
theorem specRunF_split (pred : Char → Bool) :
    ∀ f l run rest, specRunF pred f l = .ok (run, rest) →
      l = run ++ rest := by
  intro f
  induction f with
  | zero => intro l run rest h; simp [specRunF] at h
  | succ f ih =>
    intro l run rest h
    cases l with
    | nil => simp [specRunF] at h; simp [h.1, h.2]
    | cons c t =>
      simp only [specRunF] at h
      by_cases hc : pred c = true
      · rw [if_pos hc] at h
        cases hr : specRunF pred f t with
        | error e => simp [hr] at h
        | ok pr =>
          obtain ⟨run2, rest2⟩ := pr
          simp only [hr, Except.ok.injEq, Prod.mk.injEq] at h
          rw [← h.1, ← h.2]
          simpa using ih t run2 rest2 hr
      · rw [if_neg hc] at h
        simp only [Except.ok.injEq, Prod.mk.injEq] at h
        simp [← h.1, ← h.2]

/-- Every character of a spec-side run satisfies its class. -/
theorem specRunF_pred (pred : Char → Bool) :
    ∀ f l run rest, specRunF pred f l = .ok (run, rest) →
      ∀ c ∈ run, pred c = true := by
  intro f
  induction f with
  | zero => intro l run rest h; simp [specRunF] at h
  | succ f ih =>
    intro l run rest h
    cases l with
    | nil => simp [specRunF] at h; simp [h.1]
    | cons c t =>
      simp only [specRunF] at h
      by_cases hc : pred c = true
      · rw [if_pos hc] at h
        cases hr : specRunF pred f t with
        | error e => simp [hr] at h
        | ok pr =>
          obtain ⟨run2, rest2⟩ := pr
          simp only [hr, Except.ok.injEq, Prod.mk.injEq] at h
          intro c2 hc2
          rw [← h.1] at hc2
          rcases List.mem_cons.mp hc2 with rfl | hmem
          · exact hc
          · exact ih t run2 rest2 hr c2 hmem
      · rw [if_neg hc] at h
        simp only [Except.ok.injEq, Prod.mk.injEq] at h
        simp [← h.1]

/-- With fuel at least one more than the remaining input, a spec-side run
never exhausts its fuel. -/
theorem specRunF_total (pred : Char → Bool) :
    ∀ f l, l.length + 1 ≤ f →
      ∃ run rest, specRunF pred f l = .ok (run, rest) := by
  intro f
  induction f with
  | zero => intro l hl; omega
  | succ f ih =>
    intro l hl
    cases l with
    | nil => exact ⟨[], [], by simp [specRunF]⟩
    | cons c t =>
      simp only [specRunF]
      by_cases hc : pred c = true
      · rw [if_pos hc]
        obtain ⟨run, rest, hr⟩ := ih t (by simp at hl; omega)
        exact ⟨c :: run, rest, by rw [hr]⟩
      · rw [if_neg hc]
        exact ⟨[], c :: t, rfl⟩

/-- Lockstep simulation of the code-side scan loop by the spec-side run,
on ASCII input, for any pair of character classes that agree on ASCII. -/
theorem runLoopF_sim {input : List Char}
    (h : ∀ c ∈ input, asciiChar c = true)
    (predC predS : Char → Bool)
    (hpred : ∀ c ∈ input, predC c = predS c) :
    ∀ f pos, runLoopF predC input f ⟨pos, input[pos]?⟩ =
      Except.map
        (fun pr => (⟨pos + pr.1.length, input[pos + pr.1.length]?⟩ : LexState))
        (specRunF predS f (input.drop pos)) := by
  intro f
  induction f with
  | zero => intro pos; simp [runLoopF, specRunF, Except.map]
  | succ f ih =>
    intro pos
    cases hd : input.drop pos with
    | nil =>
      have hg : input[pos]? = none := by
        rw [List.getElem?_eq_none_iff]
        have := congrArg List.length hd
        simp [List.length_drop] at this
        omega
      simp [runLoopF, specRunF, hg, Except.map]
    | cons c t =>
      have hg : input[pos]? = some c := by
        have := List.getElem?_drop input pos 0
        rw [hd] at this
        simpa using this.symm
      have hmem : c ∈ input := List.getElem?_mem hg
      have hpos : pos < input.length := (List.getElem?_eq_some_iff.mp hg).1
      have ht : input.drop (pos + 1) = t := by
        have h2 := List.drop_drop 1 pos input
        rw [hd] at h2
        simpa using h2.symm
      simp only [runLoopF, specRunF, hg]
      rw [hpred c hmem]
      by_cases hc : predS c = true
      · rw [if_pos hc, if_pos hc]
        rw [advanceL_ascii h ⟨pos, some c⟩]
        dsimp only
        rw [ih (pos + 1), ht]
        cases hr : specRunF predS f t with
        | error e => simp [Except.map]
        | ok pr =>
          obtain ⟨run, rest⟩ := pr
          simp only [Except.map, List.length_cons]
          have : pos + 1 + run.length = pos + (run.length + 1) := by omega
          rw [this]
      · rw [if_neg hc, if_neg hc]
        simp [Except.map, hg]

/-- The only error a spec-side run can produce is fuel exhaustion. -/
theorem specRunF_err (pred : Char → Bool) :
    ∀ f l e, specRunF pred f l = .error e → e = .fuelOut := by
  intro f
  induction f with
  | zero => intro l e h; simp [specRunF] at h; exact h.symm
  | succ f ih =>
    intro l e h
    cases l with
    | nil => simp [specRunF] at h
    | cons c t =>
      simp only [specRunF] at h
      by_cases hc : pred c = true
      · rw [if_pos hc] at h
        cases hr : specRunF pred f t with
        | error e2 =>
          rw [hr] at h
          simp at h
          exact h ▸ ih t e2 hr
        | ok pr => obtain ⟨run, rest⟩ := pr; simp [hr] at h
      · rw [if_neg hc] at h
        simp at h

/-- On ASCII input `Lexer::number` agrees with the spec's
maximal-run-and-parse step. -/
theorem numberF_sim {input : List Char}
    (h : ∀ c ∈ input, asciiChar c = true) (f pos : Nat)
    (hp : pos ≤ input.length) :
    numberF input f ⟨pos, input[pos]?⟩ =
      match specRunF numPredS f (input.drop pos) with
      | .ok (run, _) =>
        match parseNum run with
        | some v =>
          .ok (Token.Number v,
            (⟨pos + run.length, input[pos + run.length]?⟩ : LexState))
        | none => .error (.numberParse run)
      | .error e => .error e := by
  unfold numberF numLoopF
  rw [runLoopF_sim h numPredC numPredS
    (fun c hc => by
      simp [numPredC, numPredS, rustIsNumeric_ascii (h c hc)]) f pos]
  cases hs : specRunF numPredS f (input.drop pos) with
  | error e => simp [Except.map]
  | ok pr =>
    obtain ⟨run, rest2⟩ := pr
    simp only [Except.map]
    have hsplit := specRunF_split numPredS f _ _ _ hs
    have hlen : run.length + rest2.length = input.length - pos := by
      have := congrArg List.length hsplit
      simp only [List.length_drop, List.length_append] at this
      omega
    rw [byteSlice_ascii h (by omega) (by omega)]
    have htake : (input.drop pos).take (pos + run.length - pos) = run := by
      rw [Nat.add_sub_cancel_left, hsplit]
      exact List.take_left run rest2
    rw [htake]

/-- On ASCII input `Lexer::identifier` agrees with the spec's
maximal-run-and-keyword-lookup step. -/
theorem identifierF_sim {input : List Char}
    (h : ∀ c ∈ input, asciiChar c = true) (f pos : Nat)
    (hp : pos ≤ input.length) :
    identifierF input f ⟨pos, input[pos]?⟩ =
      match specRunF rustIsAlphanumeric f (input.drop pos) with
      | .ok (run, _) =>
        match keywordTok run with
        | some t =>
          .ok (t, (⟨pos + run.length, input[pos + run.length]?⟩ : LexState))
        | none => .error (.unexpectedIdent run)
      | .error e => .error e := by
  unfold identifierF identLoopF
  rw [runLoopF_sim h rustIsAlphanumeric rustIsAlphanumeric
    (fun _ _ => rfl) f pos]
  cases hs : specRunF rustIsAlphanumeric f (input.drop pos) with
  | error e => simp [Except.map]
  | ok pr =>
    obtain ⟨run, rest2⟩ := pr
    simp only [Except.map]
    have hsplit := specRunF_split rustIsAlphanumeric f _ _ _ hs
    have hlen : run.length + rest2.length = input.length - pos := by
      have := congrArg List.length hsplit
      simp only [List.length_drop, List.length_append] at this
      omega
    rw [byteSlice_ascii h (by omega) (by omega)]
    have htake : (input.drop pos).take (pos + run.length - pos) = run := by
      rw [Nat.add_sub_cancel_left, hsplit]
      exact List.take_left run rest2
    rw [htake]

/-- On all-ASCII input the code lexer's main loop and the spec's scanning
loop run in lockstep and agree exactly. -/
theorem getTokensLoop_sim {input : List Char}
    (h : ∀ c ∈ input, asciiChar c = true) :
    ∀ f pos acc, pos ≤ input.length →
      getTokensLoopF input f ⟨pos, input[pos]?⟩ acc =
        scanSpecLoopF f (input.drop pos) acc := by
  intro f
  induction f with
  | zero => intro pos acc _; simp [getTokensLoopF, scanSpecLoopF]
  | succ f ih =>
    intro pos acc hp
    cases hd : input.drop pos with
    | nil =>
      have hg : input[pos]? = none := by
        rw [List.getElem?_eq_none_iff]
        have := congrArg List.length hd
        simp only [List.length_drop, List.length_nil] at this
        omega
      simp [getTokensLoopF, scanSpecLoopF, hg]
    | cons c t =>
      have hg : input[pos]? = some c := by
        have := List.getElem?_drop input pos 0
        rw [hd] at this
        simpa using this.symm
      have hmem : c ∈ input := List.getElem?_mem hg
      have hpos : pos < input.length := (List.getElem?_eq_some_iff.mp hg).1
      have ht : input.drop (pos + 1) = t := by
        have h2 := List.drop_drop 1 pos input
        rw [hd] at h2
        simpa using h2.symm
      have hnum := numberF_sim h f pos hp
      have hident := identifierF_sim h f pos hp
      rw [hg] at hnum hident
      have hadv := advanceL_ascii h ⟨pos, some c⟩
      simp only [getTokensLoopF, scanSpecLoopF, specNumLoopF, specIdentLoopF]
      rw [hg]
      dsimp only
      by_cases h1 : (c.isDigit || c = '.') = true
      · rw [if_pos h1, if_pos h1, hnum, hd]
        cases hs : specRunF numPredS f (c :: t) with
        | error e => rfl
        | ok pr =>
          obtain ⟨run, rest⟩ := pr
          dsimp only
          cases hpn : parseNum run with
          | none => rfl
          | some v =>
            dsimp only
            have hsplit : input.drop pos = run ++ rest :=
              hd.trans (specRunF_split numPredS f _ _ _ hs)
            have hple : pos + run.length ≤ input.length := by
              have := congrArg List.length hsplit
              simp only [List.length_drop, List.length_append] at this
              omega
            have hrest : input.drop (pos + run.length) = rest := by
              have h2 := List.drop_drop run.length pos input
              rw [hsplit] at h2
              rw [← h2]
              exact List.drop_left run rest
            rw [← hrest]
            exact ih (pos + run.length) (acc ++ [Token.Number v]) hple
      · rw [if_neg h1, if_neg h1]
        by_cases h2 : isWsChar c = true
        · rw [if_pos h2, if_pos h2, hadv]
          dsimp only
          rw [← ht]
          exact ih (pos + 1) acc (by omega)
        · rw [if_neg h2, if_neg h2]
          by_cases h3 : c = '('
          · rw [if_pos h3, if_pos h3, hadv]
            dsimp only
            rw [← ht]
            exact ih (pos + 1) (acc ++ [Token.LParen]) (by omega)
          · rw [if_neg h3, if_neg h3]
            by_cases h4 : c = ')'
            · rw [if_pos h4, if_pos h4, hadv]
              dsimp only
              rw [← ht]
              exact ih (pos + 1) (acc ++ [Token.RParen]) (by omega)
            · rw [if_neg h4, if_neg h4]
              by_cases h5 : rustIsAlphabetic c = true
              · rw [if_pos h5, if_pos h5, hident, hd]
                cases hs : specRunF rustIsAlphanumeric f (c :: t) with
                | error e => rfl
                | ok pr =>
                  obtain ⟨run, rest⟩ := pr
                  dsimp only
                  cases hk : keywordTok run with
                  | none => rfl
                  | some tok =>
                    dsimp only
                    have hsplit : input.drop pos = run ++ rest :=
                      hd.trans (specRunF_split rustIsAlphanumeric f _ _ _ hs)
                    have hple : pos + run.length ≤ input.length := by
                      have := congrArg List.length hsplit
                      simp only [List.length_drop, List.length_append] at this
                      omega
                    have hrest : input.drop (pos + run.length) = rest := by
                      have h2 := List.drop_drop run.length pos input
                      rw [hsplit] at h2
                      rw [← h2]
                      exact List.drop_left run rest
                    rw [← hrest]
                    exact ih (pos + run.length) (acc ++ [tok]) hple
              · rw [if_neg h5, if_neg h5]

/-- On all-ASCII input the code lexer coincides with the spec's lexer. -/
theorem getTokens_ascii {input : List Char}
    (h : ∀ c ∈ input, asciiChar c = true) :
    getTokens input = scanSpec input := by
  unfold getTokens scanSpec
  rw [byteLen_ascii h]
  have hsim := getTokensLoop_sim h (input.length + 2) 0 [] (by omega)
  simpa using hsim

/-- The model of `Lexer::advance` preserves the cursor invariant: the cached current
character is the character at the cursor, the cursor is at most the
character count, and an empty current character means the cursor sits at
the byte length. -/
theorem advanceL_inv {input : List Char} {s s' : LexState} {c : Char}
    (h1 : ∀ c2, s.cur = some c2 → input[s.pos]? = some c2)
    (hcur : s.cur = some c)
    (hadv : advanceL input s = .ok s') :
    (∀ c2, s'.cur = some c2 → input[s'.pos]? = some c2) ∧
      s'.pos ≤ input.length ∧
      (s'.cur = none → s'.pos = byteLen input) := by
  have hplt : s.pos < input.length :=
    (List.getElem?_eq_some_iff.mp (h1 c hcur)).1
  unfold advanceL at hadv
  by_cases hb : s.pos + 1 < byteLen input
  · rw [if_pos hb] at hadv
    cases hg : input[s.pos + 1]? with
    | none => rw [hg] at hadv; simp at hadv
    | some c2 =>
      rw [hg] at hadv
      simp only [Except.ok.injEq] at hadv
      subst hadv
      refine ⟨?_, ?_, ?_⟩
      · intro c3 hc3
        simp only at hc3
        injection hc3 with h4
        subst h4
        exact hg
      · exact Nat.le_of_lt (List.getElem?_eq_some_iff.mp hg).1
      · intro hcon; simp at hcon
  · rw [if_neg hb] at hadv
    simp only [Except.ok.injEq] at hadv
    subst hadv
    have hbl := length_le_byteLen input
    refine ⟨fun c3 hc3 => by simp at hc3,
      by show s.pos + 1 ≤ input.length; omega,
      fun _ => by show s.pos + 1 = byteLen input; omega⟩

/-- The scan loops preserve the cursor invariant. -/
theorem runLoopF_inv (pred : Char → Bool) (input : List Char) :
    ∀ f s s',
      (∀ c2, s.cur = some c2 → input[s.pos]? = some c2) →
      s.pos ≤ input.length →
      (s.cur = none → s.pos = byteLen input) →
      runLoopF pred input f s = .ok s' →
      ((∀ c2, s'.cur = some c2 → input[s'.pos]? = some c2) ∧
        s'.pos ≤ input.length ∧
        (s'.cur = none → s'.pos = byteLen input)) := by
  intro f
  induction f with
  | zero => intro s s' _ _ _ h; simp [runLoopF] at h
  | succ f ih =>
    intro s s' h1 h2 h3 h
    cases hcur : s.cur with
    | none =>
      simp only [runLoopF, hcur, Except.ok.injEq] at h
      subst h
      exact ⟨h1, h2, h3⟩
    | some c =>
      simp only [runLoopF, hcur] at h
      by_cases hc : pred c = true
      · rw [if_pos hc] at h
        cases ha : advanceL input s with
        | error e => rw [ha] at h; simp at h
        | ok s2 =>
          rw [ha] at h
          obtain ⟨g1, g2, g3⟩ := advanceL_inv h1 hcur ha
          exact ih s2 s' g1 g2 g3 h
      · rw [if_neg hc] at h
        simp only [Except.ok.injEq] at h
        subst h
        exact ⟨h1, h2, h3⟩

/-- The model of `Lexer::number` preserves the cursor invariant (its state is the scan
loop's final state). -/
theorem numberF_inv {input : List Char} {f : Nat} {s s' : LexState}
    {t : Token}
    (h1 : ∀ c2, s.cur = some c2 → input[s.pos]? = some c2)
    (h2 : s.pos ≤ input.length)
    (h3 : s.cur = none → s.pos = byteLen input)
    (h : numberF input f s = .ok (t, s')) :
    (∀ c2, s'.cur = some c2 → input[s'.pos]? = some c2) ∧
      s'.pos ≤ input.length ∧
      (s'.cur = none → s'.pos = byteLen input) := by
  unfold numberF numLoopF at h
  cases hl : runLoopF numPredC input f s with
  | error e => simp [hl] at h
  | ok s2 =>
    simp only [hl] at h
    have hi := runLoopF_inv numPredC input f s s2 h1 h2 h3 hl
    cases hb : byteSlice input s.pos s2.pos with
    | none => simp [hb] at h
    | some run =>
      simp only [hb] at h
      cases hp : parseNum run with
      | none => simp [hp] at h
      | some v =>
        simp only [hp, Except.ok.injEq, Prod.mk.injEq] at h
        exact h.2 ▸ hi

/-- The model of `Lexer::identifier` preserves the cursor invariant. -/
theorem identifierF_inv {input : List Char} {f : Nat} {s s' : LexState}
    {t : Token}
    (h1 : ∀ c2, s.cur = some c2 → input[s.pos]? = some c2)
    (h2 : s.pos ≤ input.length)
    (h3 : s.cur = none → s.pos = byteLen input)
    (h : identifierF input f s = .ok (t, s')) :
    (∀ c2, s'.cur = some c2 → input[s'.pos]? = some c2) ∧
      s'.pos ≤ input.length ∧
      (s'.cur = none → s'.pos = byteLen input) := by
  unfold identifierF identLoopF at h
  cases hl : runLoopF rustIsAlphanumeric input f s with
  | error e => simp [hl] at h
  | ok s2 =>
    simp only [hl] at h
    have hi := runLoopF_inv rustIsAlphanumeric input f s s2 h1 h2 h3 hl
    cases hb : byteSlice input s.pos s2.pos with
    | none => simp [hb] at h
    | some run =>
      simp only [hb] at h
      cases hk : keywordTok run with
      | none => simp [hk] at h
      | some t2 =>
        simp only [hk, Except.ok.injEq, Prod.mk.injEq] at h
        exact h.2 ▸ hi

/-- If the main lexer loop terminates successfully, the input's byte
length cannot exceed its character count: the cursor, which advances one
character at a time, must reach the byte length exactly. -/
theorem getTokensLoop_bytes (input : List Char) :
    ∀ f s acc ts,
      (∀ c2, s.cur = some c2 → input[s.pos]? = some c2) →
      s.pos ≤ input.length →
      (s.cur = none → s.pos = byteLen input) →
      getTokensLoopF input f s acc = .ok ts →
      byteLen input ≤ input.length := by
  intro f
  induction f with
  | zero => intro s acc ts _ _ _ h; simp [getTokensLoopF] at h
  | succ f ih =>
    intro s acc ts h1 h2 h3 h
    rw [getTokensLoopF] at h
    cases hcur : s.cur with
    | none =>
      rw [h3 hcur] at h2
      exact h2
    | some c =>
      simp only [hcur] at h
      split_ifs at h with hc1 hc2 hc3 hc4 hc5
      · cases hn : numberF input f s with
        | error e => simp [hn] at h
        | ok r =>
          obtain ⟨t, s'⟩ := r
          simp only [hn] at h
          obtain ⟨g1, g2, g3⟩ := numberF_inv h1 h2 h3 hn
          exact ih s' _ _ g1 g2 g3 h
      · cases ha : advanceL input s with
        | error e => simp [ha] at h
        | ok s' =>
          simp only [ha] at h
          obtain ⟨g1, g2, g3⟩ := advanceL_inv h1 hcur ha
          exact ih s' _ _ g1 g2 g3 h
      · cases ha : advanceL input s with
        | error e => simp [ha] at h
        | ok s' =>
          simp only [ha] at h
          obtain ⟨g1, g2, g3⟩ := advanceL_inv h1 hcur ha
          exact ih s' _ _ g1 g2 g3 h
      · cases ha : advanceL input s with
        | error e => simp [ha] at h
        | ok s' =>
          simp only [ha] at h
          obtain ⟨g1, g2, g3⟩ := advanceL_inv h1 hcur ha
          exact ih s' _ _ g1 g2 g3 h
      · cases hn : identifierF input f s with
        | error e => simp [hn] at h
        | ok r =>
          obtain ⟨t, s'⟩ := r
          simp only [hn] at h
          obtain ⟨g1, g2, g3⟩ := identifierF_inv h1 h2 h3 hn
          exact ih s' _ _ g1 g2 g3 h

/-- A successful run of the code lexer forces the input to be pure
ASCII. -/
theorem getTokens_ok_ascii {input : List Char} {ts : List Token}
    (h : getTokens input = .ok ts) :
    ∀ c ∈ input, asciiChar c = true := by
  refine ascii_of_byteLen_le (getTokensLoop_bytes input _ _ _ _ ?_ ?_ ?_ h)
  · intro c2 hc2; exact hc2
  · exact Nat.zero_le _
  · intro hnone
    simp only [List.getElem?_eq_none_iff] at hnone
    have : input = [] := by
      cases input with
      | nil => rfl
      | cons c t => simp at hnone
    rw [this]
    simp [byteLen]

/-- ASCII digit characters are ASCII. -/
theorem isDigit_ascii {c : Char} (h : c.isDigit = true) :
    asciiChar c = true := by
  simp only [Char.isDigit, Bool.and_eq_true, decide_eq_true_eq] at h
  have h2 : c.toNat ≤ 57 := h.2
  simp only [asciiChar, decide_eq_true_eq]
  omega

/-- ASCII letters are ASCII. -/
theorem isAlpha_ascii {c : Char} (h : c.isAlpha = true) :
    asciiChar c = true := by
  simp only [Char.isAlpha, Char.isUpper, Char.isLower, Bool.and_eq_true,
    Bool.or_eq_true, decide_eq_true_eq] at h
  simp only [asciiChar, decide_eq_true_eq]
  rcases h with ⟨_, h2⟩ | ⟨_, h2⟩ <;>
    exact lt_of_le_of_lt (show c.toNat ≤ 122 from le_trans h2 (by norm_num)) (by norm_num)

/-- Characters of the spec's numeric run class are ASCII. -/
theorem numPredS_ascii {c : Char} (h : numPredS c = true) :
    asciiChar c = true := by
  simp only [numPredS, Bool.or_eq_true, decide_eq_true_eq] at h
  rcases h with h | rfl
  · exact isDigit_ascii h
  · decide

/-- The lexer's whitespace characters are ASCII. -/
theorem isWsChar_ascii {c : Char} (h : isWsChar c = true) :
    asciiChar c = true := by
  simp only [isWsChar, Bool.or_eq_true, decide_eq_true_eq] at h
  rcases h with ((rfl | rfl) | rfl) | rfl <;> decide

/-- The keyword table only accepts the four ASCII keywords, so every
character of an accepted run is ASCII. -/
theorem keywordTok_ascii {s : List Char} {t : Token}
    (h : keywordTok s = some t) : ∀ c ∈ s, asciiChar c = true := by
  unfold keywordTok at h
  split_ifs at h with h1 h2 h3 h4
  · subst h1; intro c hc; fin_cases hc <;> decide
  · subst h2; intro c hc; fin_cases hc <;> decide
  · subst h3; intro c hc; fin_cases hc <;> decide
  · subst h4; intro c hc; fin_cases hc <;> decide

/-- A successful spec-side scan forces the input to be pure ASCII: every
consumed character belongs to an ASCII class or to an ASCII keyword. -/
theorem scanSpecLoop_ascii :
    ∀ f l acc ts, scanSpecLoopF f l acc = .ok ts →
      ∀ c ∈ l, asciiChar c = true := by
  intro f
  induction f with
  | zero => intro l acc ts h; simp [scanSpecLoopF] at h
  | succ f ih =>
    intro l acc ts h
    cases l with
    | nil => simp
    | cons c t =>
      simp only [scanSpecLoopF, specNumLoopF, specIdentLoopF] at h
      split_ifs at h with h1 h2 h3 h4 h5
      · cases hs : specRunF numPredS f (c :: t) with
        | error e => simp [hs] at h
        | ok pr =>
          obtain ⟨run, rest⟩ := pr
          simp only [hs] at h
          cases hpn : parseNum run with
          | none => simp [hpn] at h
          | some v =>
            simp only [hpn] at h
            have hrest := ih rest _ _ h
            have hsplit := specRunF_split numPredS f _ _ _ hs
            have hrun := specRunF_pred numPredS f _ _ _ hs
            intro c2 hc2
            rw [hsplit] at hc2
            rcases List.mem_append.mp hc2 with hm | hm
            · exact numPredS_ascii (hrun c2 hm)
            · exact hrest c2 hm
      · intro c2 hc2
        rcases List.mem_cons.mp hc2 with rfl | hm
        · exact isWsChar_ascii h2
        · exact ih t _ _ h c2 hm
      · intro c2 hc2
        rcases List.mem_cons.mp hc2 with rfl | hm
        · rw [h3]; decide
        · exact ih t _ _ h c2 hm
      · intro c2 hc2
        rcases List.mem_cons.mp hc2 with rfl | hm
        · rw [h4]; decide
        · exact ih t _ _ h c2 hm
      · cases hs : specRunF rustIsAlphanumeric f (c :: t) with
        | error e => simp [hs] at h
        | ok pr =>
          obtain ⟨run, rest⟩ := pr
          simp only [hs] at h
          cases hk : keywordTok run with
          | none => simp [hk] at h
          | some tok =>
            simp only [hk] at h
            have hrest := ih rest _ _ h
            have hsplit := specRunF_split rustIsAlphanumeric f _ _ _ hs
            have hascii := keywordTok_ascii hk
            intro c2 hc2
            rw [hsplit] at hc2
            rcases List.mem_append.mp hc2 with hm | hm
            · exact hascii c2 hm
            · exact hrest c2 hm

/-- A spec-side run on input whose head matches the class starts with that
head. -/
theorem specRunF_cons (pred : Char → Bool) {f : Nat} {c : Char}
    {t run rest : List Char} (hc : pred c = true)
    (h : specRunF pred f (c :: t) = .ok (run, rest)) :
    ∃ run2, run = c :: run2 := by
  cases f with
  | zero => simp [specRunF] at h
  | succ f =>
    simp only [specRunF, if_pos hc] at h
    cases hr : specRunF pred f t with
    | error e => simp [hr] at h
    | ok pr =>
      obtain ⟨r2, rest2⟩ := pr
      simp only [hr, Except.ok.injEq, Prod.mk.injEq] at h
      exact ⟨r2, h.1.symm⟩

/-- With the fuel the spec lexer supplies, every spec-side scan failure is
one of the three lexical faults (never fuel exhaustion). -/
theorem scanSpecLoop_fault :
    ∀ f l acc e, l.length + 2 ≤ f → scanSpecLoopF f l acc = .error e →
      isLexFault e = true := by
  intro f
  induction f with
  | zero => intro l acc e hf h; omega
  | succ f ih =>
    intro l acc e hf h
    cases l with
    | nil => simp [scanSpecLoopF] at h
    | cons c t =>
      have hft : t.length + 2 ≤ f := by
        simp only [List.length_cons] at hf
        omega
      simp only [scanSpecLoopF, specNumLoopF, specIdentLoopF] at h
      split_ifs at h with h1 h2 h3 h4 h5
      · obtain ⟨run, rest, hs⟩ := specRunF_total numPredS f (c :: t)
          (by simp only [List.length_cons]; omega)
        simp only [hs] at h
        cases hpn : parseNum run with
        | none =>
          simp only [hpn, Except.error.injEq] at h
          simp [← h, isLexFault]
        | some v =>
          simp only [hpn] at h
          obtain ⟨run2, rfl⟩ :=
            specRunF_cons numPredS (show numPredS c = true from h1) hs
          have hsplit := specRunF_split numPredS f _ _ _ hs
          have hlen : rest.length + 2 ≤ f := by
            have := congrArg List.length hsplit
            simp only [List.length_cons, List.length_append] at this
            omega
          exact ih rest _ _ hlen h
      · exact ih t _ _ hft h
      · exact ih t _ _ hft h
      · exact ih t _ _ hft h
      · obtain ⟨run, rest, hs⟩ := specRunF_total rustIsAlphanumeric f (c :: t)
          (by simp only [List.length_cons]; omega)
        simp only [hs] at h
        cases hk : keywordTok run with
        | none =>
          simp only [hk, Except.error.injEq] at h
          simp [← h, isLexFault]
        | some tok =>
          simp only [hk] at h
          have hc : rustIsAlphanumeric c = true := by
            simp [rustIsAlphanumeric, h5]
          obtain ⟨run2, rfl⟩ := specRunF_cons rustIsAlphanumeric hc hs
          have hsplit := specRunF_split rustIsAlphanumeric f _ _ _ hs
          have hlen : rest.length + 2 ≤ f := by
            have := congrArg List.length hsplit
            simp only [List.length_cons, List.length_append] at this
            omega
          exact ih rest _ _ hlen h
      · simp only [Except.error.injEq] at h
        simp [← h, isLexFault]

/-- C7: the lexer fails exactly on the inputs the spec's per-character
scan faults on, and every fault of the spec's scan is one of the three
lexical fault kinds (unrecognized character, identifier outside the
keyword set, malformed numeric literal); concretely, `5 @ 3` fails citing
the character `@`, `5 foo 3` fails citing the identifier `foo`, and
`1.2.3` fails citing the malformed numeric literal. -/
theorem c7_lexer_fails_exactly_on_faults :
    (∀ input, (∃ ts, getTokens input = .ok ts) ↔
      ∃ ts, scanSpec input = .ok ts) ∧
    (∀ input e, scanSpec input = .error e → isLexFault e = true) ∧
    getTokens "5 @ 3".toList = .error (.unexpectedChar '@') ∧
    getTokens "5 foo 3".toList = .error (.unexpectedIdent "foo".toList) ∧
    getTokens "1.2.3".toList = .error (.numberParse "1.2.3".toList) := by
  refine ⟨?_, ?_, rfl, rfl, rfl⟩
  · intro input
    constructor
    · rintro ⟨ts, hts⟩
      have hascii := getTokens_ok_ascii hts
      rw [getTokens_ascii hascii] at hts
      exact ⟨ts, hts⟩
    · rintro ⟨ts, hts⟩
      have hascii := scanSpecLoop_ascii _ _ _ _ hts
      rw [getTokens_ascii hascii]
      exact ⟨ts, hts⟩
  · intro input e he
    exact scanSpecLoop_fault _ _ _ _ (by omega) he

/-- C7 witness: the fault on `5 @ 3` is a lexical fault; the lexer
succeeds on `7 div 2` iff the spec's scan does. -/
theorem c7_witness :
    isLexFault (LexErr.unexpectedChar '@') = true ∧
      ∃ ts, scanSpec "7 div 2".toList = .ok ts :=
  ⟨c7_lexer_fails_exactly_on_faults.2.1 "5 @ 3".toList _ rfl,
    (c7_lexer_fails_exactly_on_faults.1 "7 div 2".toList).mp
      ⟨_, rfl⟩⟩

/-- C10: the lexer's scan behaves as the spec's per-character algorithm
exactly on all-ASCII inputs; on the non-ASCII alphabetic input `é`
(a two-byte character) `get_tokens` panics with the out-of-range
`chars().nth(..).unwrap()` — not a lexical fault — whereas the spec's scan
reports an ordinary lexical fault for the same input. -/
theorem c10_lexer_ascii_only :
    (∀ input, (∀ c ∈ input, asciiChar c = true) →
      getTokens input = scanSpec input) ∧
    asciiChar 'é' = false ∧
    getTokens ['é'] = .error (.charIndexPanic 1) ∧
    isLexFault (LexErr.charIndexPanic 1) = false ∧
    (∃ e, scanSpec ['é'] = .error e ∧ isLexFault e = true) := by
  refine ⟨fun input h => getTokens_ascii h, by decide, rfl, rfl, ?_⟩
  exact ⟨.unexpectedIdent ['é'], rfl, rfl⟩

/-- C10 witness: the code lexer and the spec scan agree on the ASCII line
`7 div 2`. -/
theorem c10_witness :
    getTokens "7 div 2".toList = scanSpec "7 div 2".toList :=
  c10_lexer_ascii_only.1 "7 div 2".toList (by decide)
